import Mathlib

/-!
Verification of the single-file heap allocator (`src/alloc.c`).

The C program manages a contiguous heap of blocks, each with an in-place
header `mem_block { size_t size; int free; void *ptr; mem_block *next, *prev; }`
threaded into a doubly-linked registry whose head is the most recently
grown block (`static mem_block *head`), plus two `size_t` counters
`requested_size` and `allocated_size`, and the OS break cursor moved by
`sbrk`.

Shallow embedding conventions:
* A heap is a finite association list from header addresses (`Nat`) to
  header records.  A null pointer is address `0`; the first block grown from
  the OS sits at address `0` as well, so payload pointers (address + header
  size) are always nonzero and never collide with null.
* `size_t` counters are modelled as unbounded `Int`.  In the C program the
  counters live mod 2^64; the only comparison the program makes is
  `allocated_size - requested_size >= size`, and that difference is proved
  below (`Inv`) to be the exact nonnegative integer `freeSumI + HDR*k`,
  which is below 2^64 whenever the heap itself is, so the idealisation is
  exact on reachable states.  `calloc`'s product, which the spec singles
  out as unchecked modular arithmetic, is taken mod 2^64 explicitly.
* Payload bytes are carried in a `data : List Nat` field per block; this is
  model bookkeeping for the physical bytes between two headers.  Bytes with
  indeterminate content (fresh `sbrk` memory, header bytes absorbed into a
  payload by coalescing) are modelled by the junk byte value 170.
* `assert` violations and undefined behaviour (dereferencing a pointer that
  is not a live header, `memcpy` into a null destination) are modelled as
  `Except.error`: the C execution aborts or is undefined there and defines
  no successor state.
-/

namespace MemAlloc

/-- Size in bytes of the `mem_block` header on LP64: 8 (size_t) + 4 (int,
padded to 8) + 3 * 8 (three pointers). -/
def HDR : Nat := 40

/-- Modulus of machine `size_t` arithmetic. -/
def SIZE_MOD : Nat := 2 ^ 64

/-- Byte value standing for indeterminate memory contents. -/
def JUNK : Nat := 170

/-- A run of indeterminate bytes. -/
def junkL (n : Nat) : List Nat := List.replicate n JUNK

/-- The in-heap block header of `src/alloc.c` (`struct mem_block`), plus the
model's bookkeeping of the payload bytes that follow it. -/
structure mem_block where
  size : Nat
  free : Bool
  ptr : Nat
  next : Option Nat
  prev : Option Nat
  data : List Nat
  deriving DecidableEq

/-- The global state of the allocator: the headers living in the heap
(keyed by header address), `static mem_block *head`, the OS break cursor,
the OS's refusal bound for `sbrk` (the OS model: `sbrk` succeeds exactly
while the break stays within `limit`), and the two accounting counters. -/
structure Heap where
  blocks : List (Nat × mem_block)
  head : Option Nat
  brk : Nat
  limit : Nat
  requested_size : Int
  allocated_size : Int
  deriving DecidableEq

/-- The empty heap at process start, with OS bound `limit`. -/
def initHeap (limit : Nat) : Heap :=
  ⟨[], none, 0, limit, 0, 0⟩

/-- Reading the header stored at address `a` (`none`: no live header there,
so dereferencing is undefined behaviour). -/
def lookupB : List (Nat × mem_block) → Nat → Option mem_block
  | [], _ => none
  | (k, b) :: rest, a => if k = a then some b else lookupB rest a

/-- Writing fields of the header stored at address `a`. -/
def updateB (f : mem_block → mem_block) : List (Nat × mem_block) → Nat → List (Nat × mem_block)
  | [], _ => []
  | (k, b) :: rest, a => if k = a then (k, f b) :: rest else (k, b) :: updateB f rest a

/-- Removing the header at address `a`: its bytes have been absorbed into a
neighbouring payload and it no longer exists as a header. -/
def eraseB : List (Nat × mem_block) → Nat → List (Nat × mem_block)
  | [], _ => []
  | (k, b) :: rest, a => if k = a then rest else (k, b) :: eraseB rest a

/-- Rewriting the header at address `a` and materialising one fresh header
right after it (used by `split_mem`, which carves a second header out of the
block's payload bytes). -/
def expandAt (f : mem_block → mem_block × (Nat × mem_block)) :
    List (Nat × mem_block) → Nat → List (Nat × mem_block)
  | [], _ => []
  | (k, b) :: rest, a =>
    if k = a then
      let p := f b
      (k, p.1) :: p.2 :: rest
    else (k, b) :: expandAt f rest a

/-- `get_addr`: recover the header address from a payload pointer
(`(mem_block *)ptr - 1`). -/
def get_addr (ptrv : Nat) : Nat := ptrv - HDR

/-- Outcomes of undefined behaviour or `assert` aborts. -/
inductive CErr where
  | assertPtrViol
  | assertFreeViol
  | invalidPtr
  | nullDeref
  deriving DecidableEq

/-- `split_mem(block, size)`: carve the free block at `a` into a lower part
keeping `size` payload bytes (still owned by `block`'s header) and a fresh
free header `new_block` at `block->ptr + size` covering the remaining
`oldSize - size - sizeof(mem_block)` bytes, linked into the registry in the
position `block` occupied (`new_block->next = block`,
`new_block->prev = block->prev`, relinking `block->prev->next`, or the
registry head when `block` was head). -/
def split_mem (h : Heap) (a : Nat) (size : Nat) : Heap :=
  match lookupB h.blocks a with
  | none => h
  | some b =>
    let na := a + HDR + size
    let nb : mem_block :=
      ⟨b.size - size - HDR, true, na + HDR, some a, b.prev, b.data.drop (size + HDR)⟩
    let blocks1 :=
      expandAt
        (fun bb => ({ bb with size := size, prev := some na, data := bb.data.take size },
                    (na, nb)))
        h.blocks a
    match b.prev with
    | some pp => { h with blocks := updateB (fun q => { q with next := some na }) blocks1 pp }
    | none => { h with blocks := blocks1, head := some na }

/-- `coalesce_prev(block)`: if the prev-linked neighbour exists and is free,
the block at `a` absorbs that neighbour's payload and header
(`block->size += prev->size + sizeof(mem_block)`), takes over its registry
position (`block->prev = prev->prev`, fixing `prev->prev->next`, or the
head when the neighbour was head), and `requested_size` drops by one header. -/
def coalesce_prev (h : Heap) (a : Nat) : Heap :=
  match lookupB h.blocks a with
  | none => h
  | some b =>
    match b.prev with
    | none => h
    | some p =>
      match lookupB h.blocks p with
      | none => h
      | some pb =>
        if pb.free = true then
          let blocks1 :=
            updateB
              (fun bb => { bb with size := bb.size + pb.size + HDR, prev := pb.prev,
                                   data := bb.data ++ junkL HDR ++ pb.data })
              (eraseB h.blocks p) a
          match pb.prev with
          | some pp =>
            { h with blocks := updateB (fun q => { q with next := some a }) blocks1 pp,
                     requested_size := h.requested_size - (HDR : Int) }
          | none =>
            { h with blocks := blocks1, head := some a,
                     requested_size := h.requested_size - (HDR : Int) }
        else h

/-- `coalesce_next(block)`: if the next-linked neighbour exists and is free,
that neighbour absorbs the block at `a`
(`next->size += block->size + sizeof(mem_block)`, `next->prev = block->prev`,
fixing `block->prev->next` or the head), and `requested_size` drops by one
header. -/
def coalesce_next (h : Heap) (a : Nat) : Heap :=
  match lookupB h.blocks a with
  | none => h
  | some b =>
    match b.next with
    | none => h
    | some n =>
      match lookupB h.blocks n with
      | none => h
      | some nb =>
        if nb.free = true then
          let blocks1 :=
            updateB
              (fun bb => { bb with size := bb.size + b.size + HDR, prev := b.prev,
                                   data := bb.data ++ junkL HDR ++ b.data })
              (eraseB h.blocks a) n
          match b.prev with
          | some pp =>
            { h with blocks := updateB (fun q => { q with next := some n }) blocks1 pp,
                     requested_size := h.requested_size - (HDR : Int) }
          | none =>
            { h with blocks := blocks1, head := some n,
                     requested_size := h.requested_size - (HDR : Int) }
        else h

/-- The first-fit scan of `malloc`: follow `next` links from `head` until a
free block of sufficient size is found.  The fuel argument (instantiated
with the number of live headers) bounds the walk; on well-formed heaps the
chain from `head` visits each header at most once, so the fuel is never
exhausted there. -/
def findFit (blocks : List (Nat × mem_block)) (size : Nat) : Option Nat → Nat → Option Nat
  | _, 0 => none
  | none, _ => none
  | some a, fuel + 1 =>
    match lookupB blocks a with
    | none => none
    | some b =>
      if b.free = true ∧ size ≤ b.size then some a
      else findFit blocks size b.next fuel

/-- `malloc(size)`: zero size returns NULL; if the slack prefilter
`allocated_size - requested_size >= size` passes, run the first-fit scan,
splitting a matched block when `size >= 2*size` worth of capacity and at
least 1024 bytes of leftover make it profitable; otherwise grow the heap by
`sbrk(sizeof(mem_block) + size)`, link the new block in as the registry
head, and bump both counters. -/
def malloc (h : Heap) (size : Nat) : Option Nat × Heap :=
  if size = 0 then (none, h)
  else
    let chosen :=
      if (size : Int) ≤ h.allocated_size - h.requested_size then
        findFit h.blocks size h.head h.blocks.length
      else none
    match chosen with
    | some a =>
      match lookupB h.blocks a with
      | none => (none, h)
      | some b =>
        let h1 :=
          if 2 * size ≤ b.size ∧ 1024 ≤ b.size - size then
            let hs := split_mem h a size
            { hs with requested_size := hs.requested_size + (HDR : Int) }
          else h
        match lookupB h1.blocks a with
        | none => (none, h1)
        | some b1 =>
          (some b1.ptr,
           { h1 with
               blocks := updateB (fun bb => { bb with free := false }) h1.blocks a,
               requested_size := h1.requested_size + (b1.size : Int) })
    | none =>
      if h.brk + (HDR + size) ≤ h.limit then
        let a := h.brk
        let prevF : Option Nat :=
          match h.head with
          | some hd =>
            match lookupB h.blocks hd with
            | some hb => hb.prev
            | none => none
          | none => none
        let blocks1 :=
          match h.head with
          | some hd => updateB (fun bb => { bb with prev := some a }) h.blocks hd
          | none => h.blocks
        let nb : mem_block := ⟨size, false, a + HDR, h.head, prevF, junkL size⟩
        (some (a + HDR),
         { h with blocks := blocks1 ++ [(a, nb)],
                  head := some a,
                  brk := h.brk + (HDR + size),
                  allocated_size := h.allocated_size + ((size : Int) + HDR),
                  requested_size := h.requested_size + ((size : Int) + HDR) })
      else (none, h)

/-- `free(ptr)`: null is a no-op; an already-free block is a silent no-op
(double release); otherwise mark the block free, subtract its size from
`requested_size`, and coalesce with both linked neighbours. -/
def free (h : Heap) (ptrv : Nat) : Except CErr Heap :=
  if ptrv = 0 then .ok h
  else
    match lookupB h.blocks (get_addr ptrv) with
    | none => .error .invalidPtr
    | some b =>
      if b.free = true then .ok h
      else
        let h1 :=
          { h with
              blocks := updateB (fun bb => { bb with free := true }) h.blocks (get_addr ptrv),
              requested_size := h.requested_size - (b.size : Int) }
        .ok (coalesce_next (coalesce_prev h1 (get_addr ptrv)) (get_addr ptrv))

/-- `memset(ptr, 0, n)` on a payload returned by `malloc`. -/
def memsetZ (h : Heap) (p n : Nat) : Heap :=
  { h with
      blocks :=
        updateB (fun b => { b with data := List.replicate n 0 ++ b.data.drop n })
          h.blocks (get_addr p) }

/-- `calloc(num, size)`: the product is taken in wrapping `size_t`
arithmetic with no overflow check, handed to `malloc`, and on success the
first `totalSize` payload bytes are zeroed. -/
def calloc (h : Heap) (num size : Nat) : Option Nat × Heap :=
  let totalSize := num * size % SIZE_MOD
  match malloc h totalSize with
  | (none, h1) => (none, h1)
  | (some p, h1) => (some p, memsetZ h1 p totalSize)

/-- `memcpy(dst, src, n)` between two payloads. -/
def memcpyF (h : Heap) (dst src n : Nat) : Heap :=
  match lookupB h.blocks (get_addr src) with
  | none => h
  | some sb =>
    { h with
        blocks :=
          updateB (fun b => { b with data := sb.data.take n ++ b.data.drop n })
            h.blocks (get_addr dst) }

/-- The allocate-copy-release tail of `realloc`: `malloc(size)`, then
`memcpy(result, ptr, min(size, oldSize))`, then `free(ptr)`.  When the
fresh allocation fails, the C code passes the NULL result straight into
`memcpy`: a null dereference. -/
def reallocCopy (h : Heap) (ptrv size oldSize : Nat) : Except CErr (Option Nat × Heap) :=
  match malloc h size with
  | (none, _) => .error .nullDeref
  | (some np, h1) =>
    let minSize := if size ≤ oldSize then size else oldSize
    let h2 := memcpyF h1 np ptrv minSize
    match free h2 ptrv with
    | .error e => .error e
    | .ok h3 => .ok (some np, h3)

/-- `realloc(ptr, size)`: note the C source's `if (size <= 0) free(ptr);`
has no `return`, so after the release it falls through into the asserts;
NULL `ptr` delegates to `malloc`; a block already covering `size` is
returned unchanged; else a free prev-linked neighbour large enough is
absorbed in place; else allocate-copy-release. -/
def realloc (h : Heap) (ptrv : Nat) (size : Nat) : Except CErr (Option Nat × Heap) :=
  match (if size = 0 then free h ptrv else .ok h) with
  | .error e => .error e
  | .ok h0 =>
    if ptrv = 0 then .ok (malloc h0 size)
    else
      match lookupB h0.blocks (get_addr ptrv) with
      | none => .error .invalidPtr
      | some block =>
        if block.ptr ≠ ptrv then .error .assertPtrViol
        else if block.free = true then .error .assertFreeViol
        else
          let oldSize := block.size
          if size ≤ oldSize then .ok (some ptrv, h0)
          else
            match block.prev with
            | some p =>
              match lookupB h0.blocks p with
              | none => .error .invalidPtr
              | some pb =>
                if pb.free = true then
                  if size ≤ oldSize + pb.size + HDR then
                    let h1 := { h0 with requested_size := h0.requested_size + (pb.size : Int) }
                    let h2 := coalesce_prev h1 (get_addr ptrv)
                    match lookupB h2.blocks (get_addr ptrv) with
                    | none => .error .invalidPtr
                    | some b2 => .ok (some b2.ptr, h2)
                  else reallocCopy h0 ptrv size oldSize
                else reallocCopy h0 ptrv size oldSize
            | none => reallocCopy h0 ptrv size oldSize

/-- Run `free`, staying put on an aborted execution (used to build the
reachable-state relation: aborted executions define no successor state). -/
def runFree (h : Heap) (ptrv : Nat) : Heap :=
  match free h ptrv with
  | .ok h' => h'
  | .error _ => h

/-- Run `realloc`, staying put on an aborted execution. -/
def runRealloc (h : Heap) (ptrv size : Nat) : Option Nat × Heap :=
  match realloc h ptrv size with
  | .ok r => r
  | .error _ => (none, h)

/-- Heap states reachable from process start through the four public
operations. -/
inductive Reachable : Heap → Prop where
  | init (limit : Nat) : Reachable (initHeap limit)
  | mstep {h : Heap} (n : Nat) : Reachable h → Reachable (malloc h n).2
  | cstep {h : Heap} (n m : Nat) : Reachable h → Reachable (calloc h n m).2
  | fstep {h : Heap} (p : Nat) : Reachable h → Reachable (runFree h p)
  | rstep {h : Heap} (p n : Nat) : Reachable h → Reachable (runRealloc h p n).2

/-- The byte at offset `i` of the payload starting at `p`. -/
def readByte (h : Heap) (p i : Nat) : Option Nat :=
  (lookupB h.blocks (get_addr p)).bind fun b => b.data[i]?

/-! ### Abstract heap layouts

A well-formed heap is a stack of blocks laid out contiguously from address
0 up to the break.  `AB` is the layout-level description of one block (its
capacity, flag and payload bytes); `layout` realises a list of such blocks
(bottom of the heap first) as the association list of headers the C code
manipulates, with the registry links mirroring physical adjacency:
`next` points one block down, `prev` one block up, and the registry head is
the topmost block.  `Inv` states that every reachable heap is of this
shape, has no two adjacent free blocks, and keeps the accounting slack
`allocated_size - requested_size` at or above the total free capacity. -/

structure AB where
  size : Nat
  free : Bool
  data : List Nat
  deriving DecidableEq

/-- Total footprint (headers plus payloads) of a stack of blocks. -/
def spanLen : List AB → Nat
  | [] => 0
  | ab :: rest => HDR + ab.size + spanLen rest

/-- The `prev` link of a block at `base` with the blocks `rest` above it:
the address of the next block up, or none at the top of the heap. -/
def prevOf (base : Nat) (ab : AB) (rest : List AB) : Option Nat :=
  match rest with
  | [] => none
  | _ => some (base + HDR + ab.size)

/-- Realise a stack of blocks (bottom first) as the header association
list, starting at `base`, with `below` the address of the block just
underneath (the `next` link of the bottommost realised block). -/
def layout : Nat → Option Nat → List AB → List (Nat × mem_block)
  | _, _, [] => []
  | base, below, ab :: rest =>
    (base, ⟨ab.size, ab.free, base + HDR, below, prevOf base ab rest, ab.data⟩) ::
      layout (base + HDR + ab.size) (some base) rest

/-- Address of the topmost block of the stack (the registry head). -/
def topA : Nat → List AB → Option Nat
  | _, [] => none
  | base, ab :: rest => some ((topA (base + HDR + ab.size) rest).getD base)

/-- The block (and the stack above it) sitting at address `a`. -/
def getA : Nat → Nat → List AB → Option (AB × List AB)
  | _, _, [] => none
  | base, a, ab :: rest =>
    if base = a then some (ab, rest) else getA (base + HDR + ab.size) a rest

/-- Total capacity of the free blocks. -/
def freeSumI : List AB → Int
  | [] => 0
  | ab :: rest => (if ab.free = true then (ab.size : Int) else 0) + freeSumI rest

/-- Adjacent-pair condition: two neighbouring blocks are never both free. -/
def adjOK (x y : AB) : Prop := x.free = true → y.free = false

/-- No two physically adjacent blocks are both free. -/
def NoAdjFree (bs : List AB) : Prop := List.Chain' adjOK bs

/-- The heap `h` realises the stack `bs`: its headers are exactly the
layout of `bs`, its registry head is the topmost block, and the break sits
at the top of the layout. -/
def WfL (h : Heap) (bs : List AB) : Prop :=
  h.blocks = layout 0 none bs ∧ h.head = topA 0 bs ∧ h.brk = spanLen bs

/-- The allocator invariant: some stack of blocks is realised, no two
adjacent blocks are both free, and the accounting slack
`allocated_size - requested_size` dominates the total free capacity. -/
def Inv (h : Heap) : Prop :=
  ∃ bs, WfL h bs ∧ NoAdjFree bs ∧ freeSumI bs ≤ h.allocated_size - h.requested_size

/-- Abstract effect of setting fields of the block at address `a`. -/
def mapAtA (g : AB → AB) : Nat → Nat → List AB → List AB
  | _, _, [] => []
  | base, a, ab :: rest =>
    if base = a then g ab :: rest else ab :: mapAtA g (base + HDR + ab.size) a rest

/-- Abstract effect of `split_mem` at address `a`: the block is replaced by
a lower part keeping `sz` payload bytes and an upper free remainder block
behind a fresh header. -/
def splitAtA (sz : Nat) : Nat → Nat → List AB → List AB
  | _, _, [] => []
  | base, a, ab :: rest =>
    if base = a then
      ⟨sz, ab.free, ab.data.take sz⟩ ::
        ⟨ab.size - sz - HDR, true, ab.data.drop (sz + HDR)⟩ :: rest
    else ab :: splitAtA sz (base + HDR + ab.size) a rest

/-- One merged block: `ab` absorbs the header and payload of the block
directly above it (if any). -/
def mergeTop (ab : AB) : List AB → List AB
  | [] => [ab]
  | ub :: rest => ⟨ab.size + ub.size + HDR, ab.free, ab.data ++ junkL HDR ++ ub.data⟩ :: rest

/-- Abstract effect of a coalescing merge: the block at address `a`
absorbs the block directly above it (header and payload). -/
def mergeAtA : Nat → Nat → List AB → List AB
  | _, _, [] => []
  | base, a, ab :: rest =>
    if base = a then mergeTop ab rest else ab :: mergeAtA (base + HDR + ab.size) a rest

/-- The `next` link of the block laid out directly above the prefix `pre`:
the address of `pre`'s topmost block, or the `below` parameter when `pre`
is empty (mirrors `layout`'s threading of the `below` argument). -/
def belowOf (base : Nat) (below : Option Nat) : List AB → Option Nat
  | [] => below
  | ab :: pre => belowOf (base + HDR + ab.size) (some base) pre

/-- The header addresses of a stack laid out from `base`, bottom first. -/
def addrsA : Nat → List AB → List Nat
  | _, [] => []
  | base, ab :: rest => base :: addrsA (base + HDR + ab.size) rest

/-- The chain of header addresses visited by following `next` links from
`p`, reading at most `fuel` headers. -/
def chainFromB (blocks : List (Nat × mem_block)) : Option Nat → Nat → List Nat
  | _, 0 => []
  | none, _ => []
  | some a, fuel + 1 =>
    match lookupB blocks a with
    | none => [a]
    | some b => a :: chainFromB blocks b.next fuel

/-- Executable well-formedness of the registry's doubly-linked list: the
head block has no `prev`; every `next`-neighbour points back with its
`prev` and every `prev`-neighbour points back with its `next`; and every
header is visited by the `next`-chain walked from the head. -/
def linkWfB (h : Heap) : Bool :=
  (match h.head with
   | none => true
   | some hd =>
     match lookupB h.blocks hd with
     | some b => b.prev = none
     | none => false) &&
  h.blocks.all fun kb =>
    (match kb.2.next with
     | none => true
     | some nx =>
       match lookupB h.blocks nx with
       | some bn => bn.prev = some kb.1
       | none => false) &&
    (match kb.2.prev with
     | none => true
     | some pv =>
       match lookupB h.blocks pv with
       | some bp => bp.next = some kb.1
       | none => false) &&
    decide (kb.1 ∈ chainFromB h.blocks h.head h.blocks.length)

/-! ### Concrete heaps used by the claim theorems -/

/-- A heap holding one in-use 1-byte block at address 0 (payload pointer 40),
with both counters at 41 and the break at its limit. -/
def exC1 : Heap := ⟨[(0, ⟨1, false, 40, none, none, [JUNK]⟩)], some 0, 41, 41, 41, 41⟩

/-- The same heap after `free(40)`: the block is marked free and
`requested_size` has dropped by its size. -/
def exC1freed : Heap := ⟨[(0, ⟨1, true, 40, none, none, [JUNK]⟩)], some 0, 41, 41, 40, 41⟩

/-- A heap holding one in-use 1-byte block at address 0 whose break is at
the OS limit, so any further growth request fails. -/
def exC2 : Heap := ⟨[(0, ⟨1, false, 40, none, none, [123]⟩)], some 0, 41, 41, 41, 41⟩

/-- Two adjacent free blocks: the current block at address 0 (size 1) whose
prev-linked neighbour at address 41 (size 2) is the registry head. -/
def exC3 : Heap :=
  ⟨[(0, ⟨1, true, 40, none, some 41, junkL 1⟩),
    (41, ⟨2, true, 81, some 0, none, junkL 2⟩)], some 41, 83, 83, 0, 83⟩

/-- A heap with a single free 4096-byte block and enough accounting slack
for the scan to run, used to exercise the split path of `malloc`. -/
def exC4 : Heap := ⟨layout 0 none [⟨4096, true, []⟩], some 0, 4136, 4136, 40, 4136⟩

/-- `initHeap 200` after `malloc(16)`, `malloc(16)`, `free(40)`: the block
at address 0 is free (16 bytes), the block at 56 above it is in use, and
the accounting slack is 16. -/
def exC5 : Heap := runFree (malloc (malloc (initHeap 200) 16).2 16).2 40

/-! ### Association-list toolkit -/

theorem lookupB_eq_none_of_not_mem {l : List (Nat × mem_block)} {a : Nat}
    (h : a ∉ l.map Prod.fst) : lookupB l a = none := by
  induction l with
  | nil => rfl
  | cons kb rest ih =>
    obtain ⟨k, b⟩ := kb
    simp only [List.map_cons, List.mem_cons, not_or] at h
    have hk : ¬(k = a) := fun hk => h.1 hk.symm
    simp [lookupB, hk, ih h.2]

theorem lookupB_updateB_self (f : mem_block → mem_block) (l : List (Nat × mem_block)) (a : Nat) :
    lookupB (updateB f l a) a = (lookupB l a).map f := by
  induction l with
  | nil => rfl
  | cons kb rest ih =>
    obtain ⟨k, b⟩ := kb
    by_cases hk : k = a
    · subst hk; simp [updateB, lookupB]
    · simp [updateB, lookupB, hk, ih]

theorem lookupB_updateB_ne (f : mem_block → mem_block) (l : List (Nat × mem_block)) {a x : Nat}
    (hx : x ≠ a) : lookupB (updateB f l a) x = lookupB l x := by
  induction l with
  | nil => rfl
  | cons kb rest ih =>
    obtain ⟨k, b⟩ := kb
    by_cases hk : k = a
    · subst hk
      have hkx : ¬(k = x) := fun hh => hx hh.symm
      simp [updateB, lookupB, hkx]
    · by_cases hxk : k = x
      · subst hxk; simp [updateB, lookupB, hk]
      · simp [updateB, lookupB, hk, hxk, ih]

theorem lookupB_eraseB_ne (l : List (Nat × mem_block)) {p x : Nat} (hx : x ≠ p) :
    lookupB (eraseB l p) x = lookupB l x := by
  induction l with
  | nil => rfl
  | cons kb rest ih =>
    obtain ⟨k, b⟩ := kb
    by_cases hk : k = p
    · subst hk
      have hkx : ¬(k = x) := fun hh => hx hh.symm
      simp [eraseB, lookupB, hkx]
    · by_cases hxk : k = x
      · subst hxk; simp [eraseB, lookupB, hk]
      · simp [eraseB, lookupB, hk, hxk, ih]

theorem lookupB_eraseB_self {l : List (Nat × mem_block)} {p : Nat}
    (hnd : (l.map Prod.fst).Nodup) : lookupB (eraseB l p) p = none := by
  induction l with
  | nil => rfl
  | cons kb rest ih =>
    obtain ⟨k, b⟩ := kb
    simp only [List.map_cons, List.nodup_cons] at hnd
    by_cases hk : k = p
    · subst hk
      simp only [eraseB, if_pos rfl]
      exact lookupB_eq_none_of_not_mem hnd.1
    · simp [eraseB, lookupB, hk, ih hnd.2]

theorem updateB_length (f : mem_block → mem_block) (l : List (Nat × mem_block)) (a : Nat) :
    (updateB f l a).length = l.length := by
  induction l with
  | nil => rfl
  | cons kb rest ih =>
    obtain ⟨k, b⟩ := kb
    by_cases hk : k = a <;> simp [updateB, hk, ih]

theorem expandAt_length_of_mem (f : mem_block → mem_block × (Nat × mem_block))
    {l : List (Nat × mem_block)} {a : Nat} (hm : a ∈ l.map Prod.fst) :
    (expandAt f l a).length = l.length + 1 := by
  induction l with
  | nil => simp at hm
  | cons kb rest ih =>
    obtain ⟨k, b⟩ := kb
    by_cases hk : k = a
    · subst hk; simp [expandAt]
    · simp only [List.map_cons, List.mem_cons] at hm
      rcases hm with hm | hm
      · exact absurd hm.symm hk
      · simp [expandAt, hk, ih hm]

theorem expandAt_of_not_mem (f : mem_block → mem_block × (Nat × mem_block))
    {l : List (Nat × mem_block)} {a : Nat} (hm : a ∉ l.map Prod.fst) :
    expandAt f l a = l := by
  induction l with
  | nil => rfl
  | cons kb rest ih =>
    obtain ⟨k, b⟩ := kb
    simp only [List.map_cons, List.mem_cons, not_or] at hm
    have hk : ¬(k = a) := fun hk => hm.1 hk.symm
    simp [expandAt, hk, ih hm.2]

/-! ### Branch-unfolding lemmas for the heap operations -/

theorem coalesce_prev_spec (h : Heap) (a p : Nat) (b pb : mem_block)
    (hla : lookupB h.blocks a = some b) (hbp : b.prev = some p)
    (hlp : lookupB h.blocks p = some pb) (hpf : pb.free = true) :
    coalesce_prev h a =
      (let blocks1 :=
        updateB
          (fun bb => { bb with size := bb.size + pb.size + HDR, prev := pb.prev,
                               data := bb.data ++ junkL HDR ++ pb.data })
          (eraseB h.blocks p) a
      match pb.prev with
      | some pp =>
        { h with blocks := updateB (fun q => { q with next := some a }) blocks1 pp,
                 requested_size := h.requested_size - (HDR : Int) }
      | none =>
        { h with blocks := blocks1, head := some a,
                 requested_size := h.requested_size - (HDR : Int) }) := by
  unfold coalesce_prev
  simp only [hla, hbp, hlp, hpf, if_true]

theorem coalesce_prev_not_free (h : Heap) (a p : Nat) (b pb : mem_block)
    (hla : lookupB h.blocks a = some b) (hbp : b.prev = some p)
    (hlp : lookupB h.blocks p = some pb) (hpf : pb.free = false) :
    coalesce_prev h a = h := by
  unfold coalesce_prev
  simp [hla, hbp, hlp, hpf]

theorem coalesce_prev_no_prev (h : Heap) (a : Nat) (b : mem_block)
    (hla : lookupB h.blocks a = some b) (hbp : b.prev = none) :
    coalesce_prev h a = h := by
  unfold coalesce_prev
  simp [hla, hbp]

theorem coalesce_next_spec (h : Heap) (a n : Nat) (b nb : mem_block)
    (hla : lookupB h.blocks a = some b) (hbn : b.next = some n)
    (hln : lookupB h.blocks n = some nb) (hnf : nb.free = true) :
    coalesce_next h a =
      (let blocks1 :=
        updateB
          (fun bb => { bb with size := bb.size + b.size + HDR, prev := b.prev,
                               data := bb.data ++ junkL HDR ++ b.data })
          (eraseB h.blocks a) n
      match b.prev with
      | some pp =>
        { h with blocks := updateB (fun q => { q with next := some n }) blocks1 pp,
                 requested_size := h.requested_size - (HDR : Int) }
      | none =>
        { h with blocks := blocks1, head := some n,
                 requested_size := h.requested_size - (HDR : Int) }) := by
  unfold coalesce_next
  simp only [hla, hbn, hln, hnf, if_true]

theorem coalesce_next_not_free (h : Heap) (a n : Nat) (b nb : mem_block)
    (hla : lookupB h.blocks a = some b) (hbn : b.next = some n)
    (hln : lookupB h.blocks n = some nb) (hnf : nb.free = false) :
    coalesce_next h a = h := by
  unfold coalesce_next
  simp [hla, hbn, hln, hnf]

theorem coalesce_next_no_next (h : Heap) (a : Nat) (b : mem_block)
    (hla : lookupB h.blocks a = some b) (hbn : b.next = none) :
    coalesce_next h a = h := by
  unfold coalesce_next
  simp [hla, hbn]

theorem split_mem_spec (h : Heap) (a size : Nat) (b : mem_block)
    (hla : lookupB h.blocks a = some b) :
    split_mem h a size =
      (let na := a + HDR + size
      let nb : mem_block :=
        ⟨b.size - size - HDR, true, na + HDR, some a, b.prev, b.data.drop (size + HDR)⟩
      let blocks1 :=
        expandAt
          (fun bb => ({ bb with size := size, prev := some na, data := bb.data.take size },
                      (na, nb)))
          h.blocks a
      match b.prev with
      | some pp => { h with blocks := updateB (fun q => { q with next := some na }) blocks1 pp }
      | none => { h with blocks := blocks1, head := some na }) := by
  unfold split_mem
  simp only [hla]

theorem free_spec (h : Heap) (ptrv : Nat) (b : mem_block) (hp : ptrv ≠ 0)
    (hl : lookupB h.blocks (get_addr ptrv) = some b) (hf : b.free = false) :
    free h ptrv =
      .ok (coalesce_next
            (coalesce_prev
              { h with
                  blocks :=
                    updateB (fun bb => { bb with free := true }) h.blocks (get_addr ptrv),
                  requested_size := h.requested_size - (b.size : Int) }
              (get_addr ptrv))
            (get_addr ptrv)) := by
  unfold free
  simp only [if_neg hp, hl, hf]
  simp

/-! ### Claim C1: Resize(p, 0) -/

/-- Claim C1 (code bug): `Release(40)` on `exC1` succeeds and yields the
released state, but `Resize(40, 0)` does not stop after the release — the
C source's `if (size <= 0) free(ptr);` has no `return`, so execution falls
through into `assert(block->free == 0)`, which the just-released block now
violates, aborting the program instead of returning the null sentinel that
the claim (and the function's own documentation) promises.  (With `NDEBUG`
the fall-through would instead return the stale non-null pointer, since
`oldSize >= 0` always holds.) -/
theorem claim_C1 :
    free exC1 40 = .ok exC1freed ∧ realloc exC1 40 0 = .error .assertFreeViol :=
  ⟨rfl, rfl⟩

/-! ### Claim C2: Resize's allocate-copy-release path on allocation failure -/

/-- Claim C2 (code bug): growing the 1-byte block at payload 40 to 5 bytes
takes `realloc`'s allocate-copy-release path; the fresh `malloc(5)` fails
(the OS refuses to move the break), and the C code passes the NULL result
straight into `memcpy(result, ptr, minSize)` — a null dereference — instead
of returning the null sentinel with the original block untouched, as the
claim (and the function's own documentation) requires.  Had execution
continued past the `memcpy`, `free(ptr)` would release the original block
as well. -/
theorem claim_C2 :
    (malloc exC2 5).1 = none ∧ realloc exC2 40 5 = .error .nullDeref :=
  ⟨rfl, rfl⟩

/-! ### Claim C3: the merge-with-left-neighbour step -/

/-- Claim C3 counterexample: running the merge-with-left-neighbour step on
the block at 0 of `exC3` (whose prev-linked neighbour at 41 exists and is
free) does
not leave the neighbour as the surviving block — the neighbour's header at
41 is absorbed and gone, the current block at 0 survives with the combined
capacity 1 + 2 + 40 = 43, and the registry head is updated to the current
block even though the current block was not the head (the neighbour was). -/
theorem claim_C3_counterexample :
    lookupB (coalesce_prev exC3 0).blocks 41 = none ∧
    lookupB (coalesce_prev exC3 0).blocks 0 = some ⟨43, true, 40, none, none, junkL 43⟩ ∧
    (coalesce_prev exC3 0).head = some 0 := by
  refine ⟨rfl, ?_, rfl⟩
  decide

/-- Claim C3 as amended: when the merge-with-left-neighbour step runs on
the block at `a` whose prev-linked neighbour `p` exists and is free, the
current block at `a` is the survivor: it absorbs the neighbour's capacity
plus one header's overhead, takes over the neighbour's registry position
(its prev becomes the neighbour's prev, whose next is relinked to `a`),
the neighbour's header disappears, the registry head is updated to `a`
exactly when the neighbour had no prev link (i.e. was the head), and
`requested_size` drops by one header of overhead. -/
theorem claim_C3 (h : Heap) (a p : Nat) (b pb : mem_block)
    (hnd : (h.blocks.map Prod.fst).Nodup)
    (hla : lookupB h.blocks a = some b) (hbp : b.prev = some p)
    (hlp : lookupB h.blocks p = some pb) (hpf : pb.free = true)
    (hap : a ≠ p) (hppa : pb.prev ≠ some a) (hppp : pb.prev ≠ some p) :
    lookupB (coalesce_prev h a).blocks a =
      some { b with size := b.size + pb.size + HDR, prev := pb.prev,
                    data := b.data ++ junkL HDR ++ pb.data } ∧
    lookupB (coalesce_prev h a).blocks p = none ∧
    (coalesce_prev h a).head = (match pb.prev with | none => some a | some _ => h.head) ∧
    (∀ pp, pb.prev = some pp →
      lookupB (coalesce_prev h a).blocks pp =
        (lookupB h.blocks pp).map fun q => { q with next := some a }) ∧
    (coalesce_prev h a).requested_size = h.requested_size - HDR ∧
    (coalesce_prev h a).allocated_size = h.allocated_size ∧
    (coalesce_prev h a).brk = h.brk := by
  have hstep :
      lookupB (updateB
        (fun bb => { bb with size := bb.size + pb.size + HDR, prev := pb.prev,
                             data := bb.data ++ junkL HDR ++ pb.data })
        (eraseB h.blocks p) a) a =
      some { b with size := b.size + pb.size + HDR, prev := pb.prev,
                    data := b.data ++ junkL HDR ++ pb.data } := by
    rw [lookupB_updateB_self, lookupB_eraseB_ne _ hap, hla]
    rfl
  rw [coalesce_prev_spec h a p b pb hla hbp hlp hpf]
  cases hpp : pb.prev with
  | none =>
    rw [hpp] at hstep
    dsimp only
    refine ⟨?_, ?_, rfl, ?_, rfl, rfl, rfl⟩
    · exact hstep
    · rw [lookupB_updateB_ne _ _ (Ne.symm hap), lookupB_eraseB_self hnd]
    · intro pp hcon
      exact absurd hcon (by simp)
  | some pp =>
    rw [hpp] at hstep
    have hppa' : pp ≠ a := by intro hk; rw [hpp, hk] at hppa; exact hppa rfl
    have hppp' : pp ≠ p := by intro hk; rw [hpp, hk] at hppp; exact hppp rfl
    dsimp only
    refine ⟨?_, ?_, rfl, ?_, rfl, rfl, rfl⟩
    · rw [lookupB_updateB_ne _ _ (Ne.symm hppa')]
      exact hstep
    · rw [lookupB_updateB_ne _ _ (Ne.symm hppp'),
          lookupB_updateB_ne _ _ (Ne.symm hap), lookupB_eraseB_self hnd]
    · intro pp' hpp'
      have hppe : pp' = pp := (Option.some_inj.mp hpp').symm
      subst hppe
      rw [lookupB_updateB_self, lookupB_updateB_ne _ _ hppa',
          lookupB_eraseB_ne _ hppp']

/-- Concrete discharge of `claim_C3` on `exC3`: the block at 0 absorbs the
free head block at 41. -/
theorem claim_C3_witness :
    lookupB (coalesce_prev exC3 0).blocks 0 =
      some { (⟨1, true, 40, none, some 41, junkL 1⟩ : mem_block) with
               size := 1 + 2 + HDR, prev := none,
               data := junkL 1 ++ junkL HDR ++ junkL 2 } :=
  (claim_C3 exC3 0 41 ⟨1, true, 40, none, some 41, junkL 1⟩
    ⟨2, true, 81, some 0, none, junkL 2⟩ (by decide) rfl rfl rfl rfl
    (by decide) (by decide) (by decide)).1

/-! ### Claim C7: double release is a no-op -/

/-- Claim C7: releasing a payload pointer whose block is already marked
free is a silent no-op — `free` returns with the heap state (flags, sizes,
links, head, counters) completely unchanged. -/
theorem claim_C7 (h : Heap) (p : Nat) (b : mem_block) (hp : p ≠ 0)
    (hl : lookupB h.blocks (get_addr p) = some b) (hf : b.free = true) :
    free h p = .ok h := by
  unfold free
  rw [if_neg hp, hl]
  simp [hf]

/-- Concrete discharge of `claim_C7`: a second release of the free 5-byte
block leaves the heap identical. -/
theorem claim_C7_witness :
    free ⟨[(0, ⟨5, true, 40, none, none, junkL 5⟩)], some 0, 45, 45, 0, 45⟩ 40 =
      .ok ⟨[(0, ⟨5, true, 40, none, none, junkL 5⟩)], some 0, 45, 45, 0, 45⟩ :=
  claim_C7 _ 40 ⟨5, true, 40, none, none, junkL 5⟩ (by decide) rfl rfl

/-! ### Claim C8: Allocate(0) -/

/-- Claim C8 counterexample: on the empty heap whose OS refuses all growth,
`malloc 5` is a genuine allocation failure returning the null sentinel — and
`malloc 0` returns that very same sentinel, so the zero-size result is not
distinct from the failure signal, contrary to the claim's "null signals
failure, not zero-size". -/
theorem claim_C8_counterexample :
    (malloc (initHeap 0) 5).1 = none ∧
    (malloc (initHeap 0) 0).1 = (malloc (initHeap 0) 5).1 :=
  ⟨rfl, rfl⟩

/-- Claim C8 as amended: `Allocate(0)` performs no heap mutation whatsoever
and returns the null sentinel — which is the same value `Allocate` uses to
signal failure, so a null return does not distinguish a zero-size request
from an allocation failure. -/
theorem claim_C8 (h : Heap) : malloc h 0 = (none, h) := by
  simp [malloc]

/-! ### Pure stack lemmas -/

theorem HDR_pos : 0 < HDR := by decide

theorem spanLen_append (l1 l2 : List AB) : spanLen (l1 ++ l2) = spanLen l1 + spanLen l2 := by
  induction l1 with
  | nil => simp [spanLen]
  | cons ab rest ih =>
    have hstep : (ab :: rest) ++ l2 = ab :: (rest ++ l2) := rfl
    rw [hstep]
    show HDR + ab.size + spanLen (rest ++ l2) = spanLen (ab :: rest) + spanLen l2
    rw [ih]
    show _ = HDR + ab.size + spanLen rest + spanLen l2
    omega

theorem freeSumI_append (l1 l2 : List AB) :
    freeSumI (l1 ++ l2) = freeSumI l1 + freeSumI l2 := by
  induction l1 with
  | nil => simp [freeSumI]
  | cons ab rest ih =>
    have hstep : (ab :: rest) ++ l2 = ab :: (rest ++ l2) := rfl
    rw [hstep]
    show (if ab.free = true then (ab.size : Int) else 0) + freeSumI (rest ++ l2) = _
    rw [ih]
    show _ = (if ab.free = true then (ab.size : Int) else 0) + freeSumI rest + freeSumI l2
    omega

theorem freeSumI_nonneg (bs : List AB) : 0 ≤ freeSumI bs := by
  induction bs with
  | nil => simp [freeSumI]
  | cons ab rest ih =>
    simp only [freeSumI]
    have : (0 : Int) ≤ if ab.free = true then (ab.size : Int) else 0 := by
      by_cases hf : ab.free = true <;> simp [hf]
    omega

theorem prevOf_nil (base : Nat) (ab : AB) : prevOf base ab [] = none := rfl

theorem prevOf_ne_nil (base : Nat) (ab : AB) {rest : List AB} (h : rest ≠ []) :
    prevOf base ab rest = some (base + HDR + ab.size) := by
  cases rest with
  | nil => exact absurd rfl h
  | cons q qs => rfl

theorem prevOf_size_congr (base : Nat) {x y : AB} (hs : x.size = y.size) (rest : List AB) :
    prevOf base x rest = prevOf base y rest := by
  cases rest <;> simp [prevOf, hs]

theorem topA_isSome {bs : List AB} (h : bs ≠ []) (base : Nat) : (topA base bs).isSome := by
  cases bs with
  | nil => exact absurd rfl h
  | cons ab rest => simp [topA]

theorem topA_ge {bs : List AB} : ∀ {base hd : Nat}, topA base bs = some hd → base ≤ hd := by
  induction bs with
  | nil => intro base hd h; simp [topA] at h
  | cons ab rest ih =>
    intro base hd h
    simp only [topA, Option.some_inj] at h
    cases hrest : rest with
    | nil => subst hrest; simp [topA] at h; omega
    | cons q qs =>
      have hne : rest ≠ [] := by simp [hrest]
      obtain ⟨t, ht⟩ := Option.isSome_iff_exists.mp (topA_isSome hne (base + HDR + ab.size))
      rw [ht] at h
      simp at h
      have := ih ht
      omega

theorem topA_append (l1 l2 : List AB) (base : Nat) (h2 : l2 ≠ []) :
    topA base (l1 ++ l2) = topA (base + spanLen l1) l2 := by
  induction l1 generalizing base with
  | nil => simp [spanLen]
  | cons ab rest ih =>
    have hstep : (ab :: rest) ++ l2 = ab :: (rest ++ l2) := rfl
    rw [hstep]
    have harith : base + spanLen (ab :: rest) = (base + HDR + ab.size) + spanLen rest := by
      show base + (HDR + ab.size + spanLen rest) = _
      omega
    rw [harith, ← ih (base + HDR + ab.size)]
    have hne : rest ++ l2 ≠ [] := by simp [h2]
    obtain ⟨t, ht⟩ := Option.isSome_iff_exists.mp (topA_isSome hne (base + HDR + ab.size))
    simp only [topA, ht, Option.getD_some]

/-! ### getA lemmas -/

theorem getA_ge {bs : List AB} : ∀ {base a : Nat} {x : AB × List AB},
    getA base a bs = some x → base ≤ a := by
  induction bs with
  | nil => intro base a x h; simp [getA] at h
  | cons ab rest ih =>
    intro base a x h
    by_cases hb : base = a
    · omega
    · simp only [getA, if_neg hb] at h
      have := ih h
      omega

theorem getA_zipper {bs : List AB} : ∀ {base a : Nat} {ab : AB} {rest : List AB},
    getA base a bs = some (ab, rest) →
    ∃ pre, bs = pre ++ ab :: rest ∧ a = base + spanLen pre := by
  induction bs with
  | nil => intro base a ab rest h; simp [getA] at h
  | cons ab0 bs0 ih =>
    intro base a ab rest h
    by_cases hb : base = a
    · simp only [getA, if_pos hb, Option.some_inj, Prod.mk.injEq] at h
      exact ⟨[], by simp [h.1, h.2], by simp [spanLen, hb]⟩
    · simp only [getA, if_neg hb] at h
      obtain ⟨pre, hpre, ha⟩ := ih h
      refine ⟨ab0 :: pre, by simp [hpre], ?_⟩
      simp only [spanLen]
      omega

theorem getA_at (pre : List AB) (ab : AB) (post : List AB) (base : Nat) :
    getA base (base + spanLen pre) (pre ++ ab :: post) = some (ab, post) := by
  induction pre generalizing base with
  | nil => simp [getA, spanLen]
  | cons p0 pre0 ih =>
    have hne : ¬(base = base + spanLen (p0 :: pre0)) := by
      simp only [spanLen]
      have := HDR_pos
      omega
    simp only [List.cons_append, getA, if_neg hne]
    have harith : base + spanLen (p0 :: pre0) = (base + HDR + p0.size) + spanLen pre0 := by
      simp only [spanLen]; omega
    rw [harith]
    exact ih (base + HDR + p0.size)

theorem getA_step {bs : List AB} : ∀ {base a : Nat} {ab ub : AB} {post : List AB},
    getA base a bs = some (ab, ub :: post) →
    getA base (a + HDR + ab.size) bs = some (ub, post) := by
  intro base a ab ub post h
  obtain ⟨pre, hpre, ha⟩ := getA_zipper h
  subst hpre ha
  have harith : base + spanLen pre + HDR + ab.size = base + spanLen (pre ++ [ab]) := by
    rw [spanLen_append]
    simp [spanLen]
    omega
  rw [harith]
  have hassoc : pre ++ ab :: ub :: post = (pre ++ [ab]) ++ ub :: post := by simp
  rw [hassoc]
  exact getA_at (pre ++ [ab]) ub post base

theorem getA_below {bs : List AB} {base a : Nat} {ab : AB} {rest : List AB}
    (h : getA base a bs = some (ab, rest)) :
    a = base ∨ ∃ n lb, getA base n bs = some (lb, ab :: rest) ∧ a = n + HDR + lb.size := by
  obtain ⟨pre, hpre, ha⟩ := getA_zipper h
  cases hp : pre.reverse with
  | nil =>
    left
    have : pre = [] := by
      have := congrArg List.reverse hp
      simpa using this
    subst this
    simp [spanLen] at ha
    omega
  | cons lb pre0 =>
    right
    have hpre' : pre = pre0.reverse ++ [lb] := by
      have := congrArg List.reverse hp
      simpa using this
    refine ⟨base + spanLen pre0.reverse, lb, ?_, ?_⟩
    · rw [hpre, hpre']
      have : (pre0.reverse ++ [lb]) ++ ab :: rest = pre0.reverse ++ lb :: ab :: rest := by simp
      rw [this]
      exact getA_at pre0.reverse lb (ab :: rest) base
    · rw [ha, hpre', spanLen_append]
      simp [spanLen]
      omega

theorem getA_top {bs : List AB} : ∀ {base hd : Nat}, topA base bs = some hd →
    ∃ tb, getA base hd bs = some (tb, []) := by
  induction bs with
  | nil => intro base hd h; simp [topA] at h
  | cons ab rest ih =>
    intro base hd h
    by_cases hrest : rest = []
    · subst hrest
      simp [topA] at h
      exact ⟨ab, by simp [getA, h]⟩
    · obtain ⟨t, ht⟩ := Option.isSome_iff_exists.mp (topA_isSome hrest (base + HDR + ab.size))
      simp only [topA, ht, Option.getD_some, Option.some_inj] at h
      subst h
      obtain ⟨tb, htb⟩ := ih ht
      refine ⟨tb, ?_⟩
      have hge : base + HDR + ab.size ≤ t := topA_ge ht
      have hpos := HDR_pos
      have hne2 : ¬(base = t) := by omega
      simp only [getA, if_neg hne2]
      exact htb

/-! ### Bridging the layout and the header association list -/

theorem lookup_layout_base (base : Nat) (below : Option Nat) (ab : AB) (rest : List AB) :
    lookupB (layout base below (ab :: rest)) base =
      some ⟨ab.size, ab.free, base + HDR, below, prevOf base ab rest, ab.data⟩ := by
  simp [layout, lookupB]

theorem lookup_layout_ex {bs : List AB} : ∀ {base a : Nat} {ab : AB} {rest : List AB}
    (below : Option Nat), getA base a bs = some (ab, rest) →
    ∃ bl, lookupB (layout base below bs) a =
      some ⟨ab.size, ab.free, a + HDR, bl, prevOf a ab rest, ab.data⟩ := by
  induction bs with
  | nil => intro base a ab rest below h; simp [getA] at h
  | cons ab0 bs0 ih =>
    intro base a ab rest below h
    by_cases hb : base = a
    · subst hb
      simp only [getA, if_pos rfl, Option.some_inj, Prod.mk.injEq, if_true] at h
      obtain ⟨h1, h2⟩ := h
      rw [← h1, ← h2]
      exact ⟨below, lookup_layout_base base below ab0 bs0⟩
    · simp only [getA, if_neg hb] at h
      obtain ⟨bl, hbl⟩ := ih (some base) h
      refine ⟨bl, ?_⟩
      simp only [layout, lookupB, if_neg hb]
      exact hbl

theorem lookup_layout_step {bs : List AB} : ∀ {base a : Nat} {lb ub : AB} {post : List AB}
    (below : Option Nat), getA base a bs = some (lb, ub :: post) →
    lookupB (layout base below bs) (a + HDR + lb.size) =
      some ⟨ub.size, ub.free, a + HDR + lb.size + HDR, some a,
            prevOf (a + HDR + lb.size) ub post, ub.data⟩ := by
  induction bs with
  | nil => intro base a lb ub post below h; simp [getA] at h
  | cons ab0 bs0 ih =>
    intro base a lb ub post below h
    by_cases hb : base = a
    · subst hb
      simp only [getA, if_pos rfl, Option.some_inj, Prod.mk.injEq, if_true] at h
      obtain ⟨h1, h2⟩ := h
      subst h1
      subst h2
      have hpos := HDR_pos
      have hne : ¬(base = base + HDR + ab0.size) := by omega
      simp only [layout, lookupB, if_neg hne]
      simp
    · simp only [getA, if_neg hb] at h
      have hge : base + HDR + ab0.size ≤ a := getA_ge h
      have hpos := HDR_pos
      have hne : ¬(base = a + HDR + lb.size) := by omega
      simp only [layout, lookupB, if_neg hne]
      exact ih (some base) h

theorem getA_of_lookup {bs : List AB} : ∀ {base a : Nat} {below : Option Nat} {b : mem_block},
    lookupB (layout base below bs) a = some b →
    ∃ ab rest, getA base a bs = some (ab, rest) ∧ b.size = ab.size ∧ b.free = ab.free ∧
      b.ptr = a + HDR ∧ b.prev = prevOf a ab rest ∧ b.data = ab.data := by
  induction bs with
  | nil => intro base a below b h; simp [layout, lookupB] at h
  | cons ab0 bs0 ih =>
    intro base a below b h
    by_cases hb : base = a
    · subst hb
      rw [lookup_layout_base] at h
      refine ⟨ab0, bs0, by simp [getA], ?_⟩
      rw [← Option.some_inj.mp h]
      exact ⟨rfl, rfl, rfl, rfl, rfl⟩
    · simp only [layout, lookupB, if_neg hb] at h
      obtain ⟨ab, rest, hg, hrest⟩ := ih h
      refine ⟨ab, rest, ?_, hrest⟩
      simp only [getA, if_neg hb]
      exact hg

theorem updateB_no_key (f : mem_block → mem_block) {l : List (Nat × mem_block)} {a : Nat}
    (h : lookupB l a = none) : updateB f l a = l := by
  induction l with
  | nil => rfl
  | cons kb rest ih =>
    obtain ⟨k, b⟩ := kb
    by_cases hk : k = a
    · simp [lookupB, hk] at h
    · simp only [lookupB, if_neg hk] at h
      simp [updateB, hk, ih h]

/-! ### Zipper forms of the abstract surgeries -/

theorem mapAtA_zipper (g : AB → AB) (pre : List AB) (ab : AB) (post : List AB) (base : Nat) :
    mapAtA g base (base + spanLen pre) (pre ++ ab :: post) = pre ++ g ab :: post := by
  induction pre generalizing base with
  | nil => simp [mapAtA, spanLen]
  | cons p0 pre0 ih =>
    have hpos := HDR_pos
    have hne : ¬(base = base + spanLen (p0 :: pre0)) := by
      show ¬(base = base + (HDR + p0.size + spanLen pre0))
      omega
    have hstep : (p0 :: pre0) ++ ab :: post = p0 :: (pre0 ++ ab :: post) := rfl
    rw [hstep]
    simp only [mapAtA, if_neg hne]
    have harith : base + spanLen (p0 :: pre0) = (base + HDR + p0.size) + spanLen pre0 := by
      show base + (HDR + p0.size + spanLen pre0) = _
      omega
    rw [harith, ih]
    rfl

theorem splitAtA_zipper (sz : Nat) (pre : List AB) (ab : AB) (post : List AB) (base : Nat) :
    splitAtA sz base (base + spanLen pre) (pre ++ ab :: post) =
      pre ++ ⟨sz, ab.free, ab.data.take sz⟩ ::
        ⟨ab.size - sz - HDR, true, ab.data.drop (sz + HDR)⟩ :: post := by
  induction pre generalizing base with
  | nil => simp [splitAtA, spanLen]
  | cons p0 pre0 ih =>
    have hpos := HDR_pos
    have hne : ¬(base = base + spanLen (p0 :: pre0)) := by
      show ¬(base = base + (HDR + p0.size + spanLen pre0))
      omega
    have hstep : (p0 :: pre0) ++ ab :: post = p0 :: (pre0 ++ ab :: post) := rfl
    rw [hstep]
    simp only [splitAtA, if_neg hne]
    have harith : base + spanLen (p0 :: pre0) = (base + HDR + p0.size) + spanLen pre0 := by
      show base + (HDR + p0.size + spanLen pre0) = _
      omega
    rw [harith, ih]
    rfl

theorem mergeAtA_zipper (pre : List AB) (lb : AB) (rest : List AB) (base : Nat) :
    mergeAtA base (base + spanLen pre) (pre ++ lb :: rest) = pre ++ mergeTop lb rest := by
  induction pre generalizing base with
  | nil => simp [mergeAtA, spanLen]
  | cons p0 pre0 ih =>
    have hpos := HDR_pos
    have hne : ¬(base = base + spanLen (p0 :: pre0)) := by
      show ¬(base = base + (HDR + p0.size + spanLen pre0))
      omega
    have hstep : (p0 :: pre0) ++ lb :: rest = p0 :: (pre0 ++ lb :: rest) := rfl
    rw [hstep]
    simp only [mergeAtA, if_neg hne]
    have harith : base + spanLen (p0 :: pre0) = (base + HDR + p0.size) + spanLen pre0 := by
      show base + (HDR + p0.size + spanLen pre0) = _
      omega
    rw [harith, ih]
    rfl

/-! ### Layout equations for the heap mutations -/

theorem prevOf_iff_nil {l l' : List AB} (h : l = [] ↔ l' = []) (base : Nat) (ab : AB) :
    prevOf base ab l = prevOf base ab l' := by
  cases l with
  | nil =>
    have : l' = [] := h.mp rfl
    subst this
    rfl
  | cons x xs =>
    cases l' with
    | nil => simp at h
    | cons y ys => rfl

theorem mapAtA_nil_iff (g : AB → AB) (b a : Nat) (l : List AB) :
    mapAtA g b a l = [] ↔ l = [] := by
  cases l with
  | nil => simp [mapAtA]
  | cons x xs =>
    simp only [mapAtA]
    split <;> simp

theorem mergeAtA_nil_iff (b a : Nat) (l : List AB) :
    mergeAtA b a l = [] ↔ l = [] := by
  cases l with
  | nil => simp [mergeAtA]
  | cons x xs =>
    simp only [mergeAtA]
    split
    · cases xs <;> simp [mergeTop]
    · simp

theorem splitAtA_nil_iff (sz : Nat) (b a : Nat) (l : List AB) :
    splitAtA sz b a l = [] ↔ l = [] := by
  cases l with
  | nil => simp [splitAtA]
  | cons x xs =>
    simp only [splitAtA]
    split <;> simp

theorem mapBlocksEq (gB : mem_block → mem_block) (gA : AB → AB)
    (hc : ∀ (ab : AB) (P : Nat) (N PV : Option Nat),
      gB ⟨ab.size, ab.free, P, N, PV, ab.data⟩ = ⟨ab.size, (gA ab).free, P, N, PV, (gA ab).data⟩)
    (hs : ∀ ab, (gA ab).size = ab.size) :
    ∀ {bs : List AB} {base a : Nat} {ab : AB} {rest : List AB} (below : Option Nat),
    getA base a bs = some (ab, rest) →
    updateB gB (layout base below bs) a = layout base below (mapAtA gA base a bs) := by
  intro bs
  induction bs with
  | nil => intro base a ab rest below h; simp [getA] at h
  | cons ab0 bs0 ih =>
    intro base a ab rest below h
    by_cases hb : base = a
    · subst hb
      simp only [layout, mapAtA, updateB, if_pos rfl, if_true]
      rw [hc, hs, prevOf_size_congr base (hs ab0) bs0]
    · simp only [getA, if_neg hb] at h
      simp only [layout, mapAtA, updateB, if_neg hb]
      rw [ih (some base) h]
      rw [@prevOf_iff_nil bs0 (mapAtA gA (base + HDR + ab0.size) a bs0)
            (by rw [mapAtA_nil_iff]) base ab0]

/-- The header-list effect of a coalescing merge: erasing the upper
header, growing the lower block (which also takes over the upper block's
`prev` link), and repointing the `next` link of the block above the merged
pair (when there is one) is exactly the layout of the merged stack. -/
theorem mergeBlocksEq :
    ∀ {bs : List AB} {base lo : Nat} {lb ub : AB} {post : List AB} (below : Option Nat),
    getA base lo bs = some (lb, ub :: post) →
    (match prevOf (lo + HDR + lb.size) ub post with
     | some pp =>
       updateB (fun q => { q with next := some lo })
         (updateB
           (fun bb => { bb with size := bb.size + ub.size + HDR,
                                prev := prevOf (lo + HDR + lb.size) ub post,
                                data := bb.data ++ junkL HDR ++ ub.data })
           (eraseB (layout base below bs) (lo + HDR + lb.size)) lo) pp
     | none =>
       updateB
         (fun bb => { bb with size := bb.size + ub.size + HDR,
                              prev := prevOf (lo + HDR + lb.size) ub post,
                              data := bb.data ++ junkL HDR ++ ub.data })
         (eraseB (layout base below bs) (lo + HDR + lb.size)) lo)
    = layout base below (mergeAtA base lo bs) := by
  intro bs
  induction bs with
  | nil => intro base lo lb ub post below h; simp [getA] at h
  | cons ab0 bs0 ih =>
    intro base lo lb ub post below h
    have hpos := HDR_pos
    by_cases hb : base = lo
    · subst hb
      simp only [getA, if_pos rfl, if_true, Option.some_inj, Prod.mk.injEq] at h
      obtain ⟨h1, h2⟩ := h
      subst h1
      subst h2
      -- now bs = ab0 :: ub :: post with ab0 playing the role of the lower block
      have hne1 : ¬(base = base + HDR + ab0.size) := by omega
      have hne2 : ¬(base = base + HDR + ab0.size + HDR + ub.size) := by omega
      cases post with
      | nil =>
        simp only [prevOf, layout, eraseB, updateB, if_neg hne1, if_pos rfl, if_true,
                   mergeAtA, mergeTop]
      | cons q post2 =>
        simp only [prevOf, layout, eraseB, updateB, if_neg hne1, if_neg hne2, if_pos rfl,
                   if_true, mergeAtA, mergeTop]
        have e1 : base + HDR + (ab0.size + ub.size + HDR) = base + HDR + ab0.size + HDR + ub.size := by
          omega
        rw [e1]
    · simp only [getA, if_neg hb] at h
      have hge : base + HDR + ab0.size ≤ lo := getA_ge h
      have hneU : ¬(base = lo + HDR + lb.size) := by omega
      have hneL : ¬(base = lo) := hb
      have hrec := ih (some base) h
      simp only [layout, mergeAtA, if_neg hb]
      cases hpp : prevOf (lo + HDR + lb.size) ub post with
      | none =>
        rw [hpp] at hrec
        dsimp only at hrec
        simp only [eraseB, updateB, if_neg hneU, if_neg hneL]
        rw [hrec]
        rw [@prevOf_iff_nil bs0 (mergeAtA (base + HDR + ab0.size) lo bs0)
              (by rw [mergeAtA_nil_iff]) base ab0]
      | some pp =>
        rw [hpp] at hrec
        dsimp only at hrec
        have hnePP : ¬(base = pp) := by
          have : pp = lo + HDR + lb.size + HDR + ub.size := by
            cases post with
            | nil => simp [prevOf] at hpp
            | cons q p2 => simp [prevOf] at hpp; omega
          omega
        simp only [eraseB, updateB, if_neg hneU, if_neg hneL, if_neg hnePP]
        rw [hrec]
        rw [@prevOf_iff_nil bs0 (mergeAtA (base + HDR + ab0.size) lo bs0)
              (by rw [mergeAtA_nil_iff]) base ab0]

/-- The header-list effect of `split_mem`: rewriting the chosen header to
the carved-down size, materialising the fresh free header above it, and
repointing the `next` link of the block above the original block (when
there is one) is exactly the layout of the split stack. -/
theorem splitBlocksEq :
    ∀ {bs : List AB} {base a : Nat} {ab : AB} {rest : List AB} (below : Option Nat) (sz : Nat),
    getA base a bs = some (ab, rest) →
    sz + HDR ≤ ab.size →
    (match prevOf a ab rest with
     | some pp =>
       updateB (fun q => { q with next := some (a + HDR + sz) })
         (expandAt
           (fun bb => ({ bb with size := sz, prev := some (a + HDR + sz),
                                 data := bb.data.take sz },
                       (a + HDR + sz,
                        ⟨ab.size - sz - HDR, true, a + HDR + sz + HDR, some a,
                         prevOf a ab rest, ab.data.drop (sz + HDR)⟩)))
           (layout base below bs) a) pp
     | none =>
       expandAt
         (fun bb => ({ bb with size := sz, prev := some (a + HDR + sz),
                               data := bb.data.take sz },
                     (a + HDR + sz,
                      ⟨ab.size - sz - HDR, true, a + HDR + sz + HDR, some a,
                       prevOf a ab rest, ab.data.drop (sz + HDR)⟩)))
         (layout base below bs) a)
    = layout base below (splitAtA sz base a bs) := by
  intro bs
  induction bs with
  | nil => intro base a ab rest below sz h hsz; simp [getA] at h
  | cons ab0 bs0 ih =>
    intro base a ab rest below sz h hsz
    have hpos := HDR_pos
    by_cases hb : base = a
    · subst hb
      simp only [getA, if_pos rfl, if_true, Option.some_inj, Prod.mk.injEq] at h
      obtain ⟨h1, h2⟩ := h
      subst h1
      subst h2
      cases bs0 with
      | nil =>
        simp only [prevOf, layout, expandAt, if_pos rfl, if_true, splitAtA]
      | cons q rest2 =>
        have hne1 : ¬(base = base + HDR + ab0.size) := by omega
        have hne2 : ¬(base = base + HDR + sz) := by omega
        have hne3 : ¬(base + HDR + sz = base + HDR + ab0.size) := by omega
        simp only [prevOf, layout, expandAt, updateB, if_pos rfl, if_true,
                   if_neg hne1, if_neg hne2, if_neg hne3, splitAtA]
        have e1 : base + HDR + sz + HDR + (ab0.size - sz - HDR) = base + HDR + ab0.size := by
          omega
        rw [e1]
    · simp only [getA, if_neg hb] at h
      have hge : base + HDR + ab0.size ≤ a := getA_ge h
      have hneA : ¬(base = a) := hb
      have hrec := ih (some base) sz h hsz
      simp only [layout, splitAtA, if_neg hb]
      cases hpp : prevOf a ab rest with
      | none =>
        rw [hpp] at hrec
        dsimp only at hrec
        simp only [expandAt, if_neg hneA]
        rw [hrec]
        rw [@prevOf_iff_nil bs0 (splitAtA sz (base + HDR + ab0.size) a bs0)
              (by rw [splitAtA_nil_iff]) base ab0]
      | some pp =>
        rw [hpp] at hrec
        dsimp only at hrec
        have hnePP : ¬(base = pp) := by
          have : pp = a + HDR + ab.size := by
            cases rest with
            | nil => simp [prevOf] at hpp
            | cons q p2 => simp [prevOf] at hpp; omega
          omega
        simp only [expandAt, updateB, if_neg hneA, if_neg hnePP]
        rw [hrec]
        rw [@prevOf_iff_nil bs0 (splitAtA sz (base + HDR + ab0.size) a bs0)
              (by rw [splitAtA_nil_iff]) base ab0]

/-- The header-list effect of heap growth: repointing the old head's
`prev` to the fresh block and appending the fresh in-use header at the
break is exactly the layout of the extended stack. -/
theorem growthBlocksEq :
    ∀ {bs : List AB} {base hd : Nat} (below : Option Nat) (sz : Nat),
    topA base bs = some hd →
    updateB (fun bb => { bb with prev := some (base + spanLen bs) }) (layout base below bs) hd
      ++ [(base + spanLen bs,
           ⟨sz, false, base + spanLen bs + HDR, some hd, none, junkL sz⟩)]
    = layout base below (bs ++ [⟨sz, false, junkL sz⟩]) := by
  intro bs
  induction bs with
  | nil => intro base hd below sz h; simp [topA] at h
  | cons ab0 bs0 ih =>
    intro base hd below sz h
    have hpos := HDR_pos
    by_cases hrest : bs0 = []
    · subst hrest
      simp only [topA, Option.getD_none, Option.some_inj] at h
      subst h
      simp only [layout, updateB, if_pos rfl, if_true, spanLen, prevOf, List.cons_append,
                 List.nil_append]
      have e1 : base + (HDR + ab0.size + 0) = base + HDR + ab0.size := by omega
      rw [e1]
      rfl
    · obtain ⟨t, ht⟩ := Option.isSome_iff_exists.mp (topA_isSome hrest (base + HDR + ab0.size))
      simp only [topA, ht, Option.getD_some, Option.some_inj] at h
      subst h
      have hge : base + HDR + ab0.size ≤ t := topA_ge ht
      have hne : ¬(base = t) := by omega
      have hrec := ih (some base) sz ht
      have harith : base + spanLen (ab0 :: bs0) = (base + HDR + ab0.size) + spanLen bs0 := by
        show base + (HDR + ab0.size + spanLen bs0) = _
        omega
      rw [harith]
      have hstep : (ab0 :: bs0) ++ [(⟨sz, false, junkL sz⟩ : AB)] =
          ab0 :: (bs0 ++ [⟨sz, false, junkL sz⟩]) := rfl
      rw [hstep]
      simp only [layout, updateB, if_neg hne, List.cons_append]
      rw [hrec]
      rw [@prevOf_iff_nil bs0 (bs0 ++ [⟨sz, false, junkL sz⟩])
            (by simp [hrest]) base ab0]

/-! ### Heap-level simulation of the coalescing and splitting steps -/

theorem topA_single (base : Nat) (ab : AB) : topA base [ab] = some base := by
  simp [topA]

theorem topA_cons_of_ne (base : Nat) (ab : AB) {rest : List AB} (h : rest ≠ []) :
    topA base (ab :: rest) = topA (base + HDR + ab.size) rest := by
  obtain ⟨t, ht⟩ := Option.isSome_iff_exists.mp (topA_isSome h (base + HDR + ab.size))
  simp [topA, ht]

/-- Firing `coalesce_prev` on the block at `a` whose upper neighbour is
free merges the pair, updates the head exactly when the upper neighbour
was topmost, and drops `requested_size` by one header. -/
theorem coalesce_prev_at (h : Heap) (bs : List AB) (a : Nat) (ab ub : AB) (post : List AB)
    (hb : h.blocks = layout 0 none bs)
    (hg : getA 0 a bs = some (ab, ub :: post))
    (huf : ub.free = true) :
    coalesce_prev h a =
      { h with blocks := layout 0 none (mergeAtA 0 a bs),
               head := if post = [] then some a else h.head,
               requested_size := h.requested_size - (HDR : Int) } := by
  obtain ⟨bl, hla⟩ := lookup_layout_ex none hg
  have hlp := lookup_layout_step none hg
  rw [← hb] at hla hlp
  rw [coalesce_prev_spec h a (a + HDR + ab.size)
        ⟨ab.size, ab.free, a + HDR, bl, prevOf a ab (ub :: post), ab.data⟩
        ⟨ub.size, ub.free, a + HDR + ab.size + HDR, some a,
         prevOf (a + HDR + ab.size) ub post, ub.data⟩
        hla (by simp [prevOf]) hlp huf]
  have hm := mergeBlocksEq none hg
  rw [← hb] at hm
  cases hpp : prevOf (a + HDR + ab.size) ub post with
  | none =>
    rw [hpp] at hm
    dsimp only at hm ⊢
    have hpost : post = [] := by
      cases post with
      | nil => rfl
      | cons q p2 => simp [prevOf] at hpp
    subst hpost
    rw [hb] at hm ⊢
    rw [hm, if_pos rfl]
  | some pp =>
    rw [hpp] at hm
    dsimp only at hm ⊢
    have hpost : post ≠ [] := by
      intro hc
      subst hc
      simp [prevOf] at hpp
    cases post with
    | nil => exact absurd rfl hpost
    | cons q p2 =>
      rw [hb] at hm ⊢
      rw [hm, if_neg (by simp)]

/-- `coalesce_prev` on the topmost block is a no-op: its `prev` link is
null. -/
theorem coalesce_prev_at_top (h : Heap) (bs : List AB) (a : Nat) (ab : AB)
    (hb : h.blocks = layout 0 none bs)
    (hg : getA 0 a bs = some (ab, [])) :
    coalesce_prev h a = h := by
  obtain ⟨bl, hla⟩ := lookup_layout_ex none hg
  rw [← hb] at hla
  exact coalesce_prev_no_prev h a _ hla (by simp [prevOf])

/-- `coalesce_prev` on a block whose upper neighbour is in use is a
no-op. -/
theorem coalesce_prev_at_inuse (h : Heap) (bs : List AB) (a : Nat) (ab ub : AB) (post : List AB)
    (hb : h.blocks = layout 0 none bs)
    (hg : getA 0 a bs = some (ab, ub :: post))
    (huf : ub.free = false) :
    coalesce_prev h a = h := by
  obtain ⟨bl, hla⟩ := lookup_layout_ex none hg
  have hlp := lookup_layout_step none hg
  rw [← hb] at hla hlp
  exact coalesce_prev_not_free h a (a + HDR + ab.size) _ _ hla (by simp [prevOf]) hlp huf

/-- Firing `coalesce_next` on the block directly above the free block at
`lo` merges the pair into `lo`, updates the head exactly when the upper
block was topmost, and drops `requested_size` by one header. -/
theorem coalesce_next_at (h : Heap) (bs : List AB) (lo : Nat) (lb ub : AB) (post : List AB)
    (hb : h.blocks = layout 0 none bs)
    (hg : getA 0 lo bs = some (lb, ub :: post))
    (hlf : lb.free = true) :
    coalesce_next h (lo + HDR + lb.size) =
      { h with blocks := layout 0 none (mergeAtA 0 lo bs),
               head := if post = [] then some lo else h.head,
               requested_size := h.requested_size - (HDR : Int) } := by
  obtain ⟨bl, hllo⟩ := lookup_layout_ex none hg
  have hla := lookup_layout_step none hg
  rw [← hb] at hllo hla
  rw [coalesce_next_spec h (lo + HDR + lb.size) lo
        ⟨ub.size, ub.free, lo + HDR + lb.size + HDR, some lo,
         prevOf (lo + HDR + lb.size) ub post, ub.data⟩
        ⟨lb.size, lb.free, lo + HDR, bl, prevOf lo lb (ub :: post), lb.data⟩
        hla rfl hllo hlf]
  have hm := mergeBlocksEq none hg
  rw [← hb] at hm
  cases hpp : prevOf (lo + HDR + lb.size) ub post with
  | none =>
    rw [hpp] at hm
    dsimp only at hm ⊢
    have hpost : post = [] := by
      cases post with
      | nil => rfl
      | cons q p2 => simp [prevOf] at hpp
    subst hpost
    rw [hb] at hm ⊢
    rw [hm, if_pos rfl]
  | some pp =>
    rw [hpp] at hm
    dsimp only at hm ⊢
    cases post with
    | nil => simp [prevOf] at hpp
    | cons q p2 =>
      rw [hb] at hm ⊢
      rw [hm, if_neg (by simp)]

/-- `coalesce_next` on the bottommost block is a no-op: its `next` link is
null. -/
theorem coalesce_next_at_bottom (h : Heap) (bs : List AB) (ab : AB) (rest : List AB)
    (hb : h.blocks = layout 0 none bs) (hbs : bs = ab :: rest) :
    coalesce_next h 0 = h := by
  subst hbs
  have hla : lookupB h.blocks 0 =
      some ⟨ab.size, ab.free, 0 + HDR, none, prevOf 0 ab rest, ab.data⟩ := by
    rw [hb]
    exact lookup_layout_base 0 none ab rest
  exact coalesce_next_no_next h 0 _ hla rfl

/-- `coalesce_next` on a block whose lower neighbour is in use is a
no-op. -/
theorem coalesce_next_at_inuse (h : Heap) (bs : List AB) (lo : Nat) (lb ub : AB) (post : List AB)
    (hb : h.blocks = layout 0 none bs)
    (hg : getA 0 lo bs = some (lb, ub :: post))
    (hlf : lb.free = false) :
    coalesce_next h (lo + HDR + lb.size) = h := by
  obtain ⟨bl, hllo⟩ := lookup_layout_ex none hg
  have hla := lookup_layout_step none hg
  rw [← hb] at hllo hla
  exact coalesce_next_not_free h (lo + HDR + lb.size) lo _ _ hla rfl hllo hlf

/-- Firing `split_mem` with `sz` on the block at `a` carves it into the
lower `sz`-byte portion and an upper free remainder, updating the head
exactly when the block was topmost. -/
theorem split_mem_at (h : Heap) (bs : List AB) (a : Nat) (ab : AB) (rest : List AB) (sz : Nat)
    (hb : h.blocks = layout 0 none bs)
    (hg : getA 0 a bs = some (ab, rest))
    (hsz : sz + HDR ≤ ab.size) :
    split_mem h a sz =
      { h with blocks := layout 0 none (splitAtA sz 0 a bs),
               head := if rest = [] then some (a + HDR + sz) else h.head } := by
  obtain ⟨bl, hla⟩ := lookup_layout_ex none hg
  rw [← hb] at hla
  rw [split_mem_spec h a sz _ hla]
  have hm := splitBlocksEq none sz hg hsz
  rw [← hb] at hm
  cases hpp : prevOf a ab rest with
  | none =>
    rw [hpp] at hm
    dsimp only at hm ⊢
    have hpost : rest = [] := by
      cases rest with
      | nil => rfl
      | cons q p2 => simp [prevOf] at hpp
    subst hpost
    rw [hb] at hm ⊢
    rw [hm, if_pos rfl]
  | some pp =>
    rw [hpp] at hm
    dsimp only at hm ⊢
    cases rest with
    | nil => simp [prevOf] at hpp
    | cons q p2 =>
      rw [hb] at hm ⊢
      rw [hm, if_neg (by simp)]

/-! ### Invariant preservation -/

theorem topA_zip_congr (pre rest : List AB) (base : Nat) (ab ab' : AB)
    (hs : ab.size = ab'.size) :
    topA base (pre ++ ab :: rest) = topA base (pre ++ ab' :: rest) := by
  rw [topA_append _ _ _ (by simp), topA_append _ _ _ (by simp)]
  cases rest with
  | nil => simp [topA]
  | cons q qs =>
    have h1 := @topA_cons_of_ne (base + spanLen pre) ab (q :: qs) (by simp)
    have h2 := @topA_cons_of_ne (base + spanLen pre) ab' (q :: qs) (by simp)
    rw [h1, h2, hs]

theorem spanLen_cons (ab : AB) (rest : List AB) :
    spanLen (ab :: rest) = HDR + ab.size + spanLen rest := rfl

theorem freeSumI_cons (ab : AB) (rest : List AB) :
    freeSumI (ab :: rest) = (if ab.free = true then (ab.size : Int) else 0) + freeSumI rest := rfl

/-- Second half of a release: the freed (or merged) block `X` sits at
`spanLen pre` with a clean chain above it; running `coalesce_next` there
restores the full invariant. -/
theorem Inv_coalesce_next_stage (h2 : Heap) (pre : List AB) (X : AB) (post' : List AB)
    (hbl : h2.blocks = layout 0 none (pre ++ X :: post'))
    (hhd : h2.head = topA 0 (pre ++ X :: post'))
    (hbrk : h2.brk = spanLen (pre ++ X :: post'))
    (hXf : X.free = true)
    (hcpre : List.Chain' adjOK pre)
    (hcpost : List.Chain' adjOK (X :: post'))
    (hacc : freeSumI (pre ++ X :: post') ≤ h2.allocated_size - h2.requested_size) :
    Inv (coalesce_next h2 (spanLen pre)) := by
  rcases List.eq_nil_or_concat pre with hpre | ⟨pre', lb, hpre⟩
  · -- the block is the bottommost one: `next` is null, no merge fires
    subst hpre
    rw [show spanLen ([] : List AB) = 0 from rfl]
    rw [coalesce_next_at_bottom h2 (X :: post') X post' (by simpa using hbl) rfl]
    refine ⟨X :: post', ⟨by simpa using hbl, by simpa using hhd, by simpa using hbrk⟩,
            hcpost, by simpa using hacc⟩
  · have hpre2 : pre = pre' ++ [lb] := by simpa [List.concat_eq_append] using hpre
    subst hpre2
    have hbs2 : pre' ++ [lb] ++ X :: post' = pre' ++ lb :: X :: post' := by simp
    have hspan : spanLen (pre' ++ [lb]) = spanLen pre' + HDR + lb.size := by
      rw [spanLen_append]
      show spanLen pre' + (HDR + lb.size + 0) = _
      omega
    have hgetlb : getA 0 (spanLen pre') (pre' ++ lb :: X :: post') = some (lb, X :: post') := by
      have := getA_at pre' lb (X :: post') 0
      simpa using this
    -- the chain pieces of `pre' ++ [lb]`
    have hcpre' : List.Chain' adjOK pre' :=
      (List.chain'_append.mp hcpre).1
    have hbdry' : ∀ x ∈ pre'.getLast?, adjOK x lb := by
      intro x hx
      have := (List.chain'_append.mp hcpre).2.2 x hx lb (by simp)
      exact this
    by_cases hlf : lb.free = true
    · -- the lower neighbour is free: it absorbs the freed block
      have hco := coalesce_next_at h2 (pre' ++ lb :: X :: post') (spanLen pre') lb X post'
          (by rw [hbl, hbs2]) hgetlb hlf
      rw [hspan, show spanLen pre' + HDR + lb.size = spanLen pre' + HDR + lb.size from rfl]
      rw [hco]
      have hmz : mergeAtA 0 (spanLen pre') (pre' ++ lb :: X :: post') =
          pre' ++ ⟨lb.size + X.size + HDR, lb.free, lb.data ++ junkL HDR ++ X.data⟩ :: post' := by
        have := mergeAtA_zipper pre' lb (X :: post') 0
        rw [show (0 : Nat) + spanLen pre' = spanLen pre' from by omega] at this
        rw [this]
        rfl
      set M2 : AB := ⟨lb.size + X.size + HDR, lb.free, lb.data ++ junkL HDR ++ X.data⟩ with hM2
      refine ⟨pre' ++ M2 :: post', ⟨by simp only [hmz], ?_, ?_⟩, ?_, ?_⟩
      · -- head
        show (if post' = [] then some (spanLen pre') else h2.head) = topA 0 (pre' ++ M2 :: post')
        cases post' with
        | nil =>
          rw [if_pos rfl, topA_append _ _ _ (by simp), topA_single]
          simp
        | cons q p2 =>
          rw [if_neg (by simp), hhd, hbs2, topA_append _ _ _ (by simp),
              topA_append _ _ _ (by simp)]
          have e1 := @topA_cons_of_ne (0 + spanLen pre') lb (X :: q :: p2) (by simp)
          have e2 := @topA_cons_of_ne (0 + spanLen pre' + HDR + lb.size) X
              (q :: p2) (by simp)
          have e3 := @topA_cons_of_ne (0 + spanLen pre') M2 (q :: p2) (by simp)
          rw [e1, e2, e3]
          have e : 0 + spanLen pre' + HDR + lb.size + HDR + X.size =
              0 + spanLen pre' + HDR + M2.size := by
            rw [hM2]
            show _ = 0 + spanLen pre' + HDR + (lb.size + X.size + HDR)
            omega
          rw [e]
      · -- break
        show h2.brk = spanLen (pre' ++ M2 :: post')
        rw [hbrk, hbs2, spanLen_append, spanLen_append, spanLen_cons, spanLen_cons,
            spanLen_cons]
        show spanLen pre' + (HDR + lb.size + (HDR + X.size + spanLen post')) =
            spanLen pre' + (HDR + (lb.size + X.size + HDR) + spanLen post')
        omega
      · -- no adjacent free blocks
        rw [NoAdjFree, List.chain'_append]
        refine ⟨hcpre', ?_, ?_⟩
        · rw [List.chain'_cons']
          refine ⟨?_, (List.chain'_cons'.mp hcpost).2⟩
          intro y hy
          intro hMf
          exact (List.chain'_cons'.mp hcpost).1 y hy hXf
        · intro x hx y hy
          simp only [List.head?_cons, Option.mem_def, Option.some_inj] at hy
          subst hy
          intro hxf
          have hlbf := hbdry' x hx hxf
          rw [hlf] at hlbf
          exact absurd hlbf (by simp)
      · -- accounting
        show freeSumI (pre' ++ M2 :: post') ≤ h2.allocated_size - (h2.requested_size - (HDR : Int))
        have h1 : (if M2.free = true then (M2.size : Int) else 0) =
            ((lb.size + X.size + HDR : Nat) : Int) := by
          rw [hM2]
          simp [hlf]
        have h2' : (if lb.free = true then (lb.size : Int) else 0) = (lb.size : Int) := by
          simp [hlf]
        have h3 : (if X.free = true then (X.size : Int) else 0) = (X.size : Int) := by
          simp [hXf]
        rw [freeSumI_append, freeSumI_cons, h1]
        rw [hbs2] at hacc
        rw [freeSumI_append, freeSumI_cons, freeSumI_cons, h2', h3] at hacc
        push_cast
        omega
    · -- the lower neighbour is in use: no merge fires
      have hlf' : lb.free = false := by
        cases hv : lb.free with
        | false => rfl
        | true => exact absurd hv hlf
      have hco := coalesce_next_at_inuse h2 (pre' ++ lb :: X :: post') (spanLen pre') lb X post'
          (by rw [hbl, hbs2]) hgetlb hlf'
      rw [hspan, hco]
      refine ⟨(pre' ++ [lb]) ++ X :: post', ⟨hbl, hhd, hbrk⟩, ?_, hacc⟩
      rw [NoAdjFree, List.chain'_append]
      refine ⟨hcpre, hcpost, ?_⟩
      intro x hx y hy
      simp only [List.head?_cons, Option.mem_def, Option.some_inj] at hy
      subst hy
      have hxlb : x = lb := by
        have : (pre' ++ [lb]).getLast? = some lb := by
          rw [List.getLast?_append_of_ne_nil _ (by simp)]
          rfl
        rw [this] at hx
        exact Option.some_inj.mp (Option.mem_def.mp hx).symm
      subst hxlb
      intro hxf
      exact absurd hxf (by simp [hlf'])

/-- `free` preserves the allocator invariant. -/
theorem inv_free {h h' : Heap} {p : Nat} (hi : Inv h) (he : free h p = .ok h') : Inv h' := by
  obtain ⟨bs, ⟨hbl, hhd, hbrk⟩, hnaf, hacc⟩ := hi
  by_cases hp : p = 0
  · rw [free, if_pos hp] at he
    simp only [Except.ok.injEq] at he
    subst he
    exact ⟨bs, ⟨hbl, hhd, hbrk⟩, hnaf, hacc⟩
  · rw [free, if_neg hp] at he
    cases hl : lookupB h.blocks (get_addr p) with
    | none =>
      rw [hl] at he
      simp at he
    | some b =>
      rw [hl] at he
      dsimp only at he
      by_cases hbf : b.free = true
      · rw [if_pos hbf] at he
        simp only [Except.ok.injEq] at he
        subst he
        exact ⟨bs, ⟨hbl, hhd, hbrk⟩, hnaf, hacc⟩
      · rw [if_neg hbf] at he
        simp only [Except.ok.injEq] at he
        subst he
        have hbf' : b.free = false := by
          cases hv : b.free with
          | false => rfl
          | true => exact absurd hv hbf
        rw [hbl] at hl
        obtain ⟨ab, rest, hg, hsize, hfree, hptr, hprev, hdata⟩ := getA_of_lookup hl
        have habf : ab.free = false := by rw [← hfree]; exact hbf'
        obtain ⟨pre, hpz, haz⟩ := getA_zipper hg
        have haz' : get_addr p = spanLen pre := by omega
        set abT : AB := { ab with free := true } with habT
        have hmap := mapBlocksEq (fun bb => { bb with free := true })
            (fun x => { x with free := true }) (fun x P N PV => rfl) (fun x => rfl)
            none hg
        have hbs1 : mapAtA (fun x => { x with free := true }) 0 (get_addr p) bs =
            pre ++ abT :: rest := by
          rw [hpz, haz]
          exact mapAtA_zipper _ pre ab rest 0
        set h1 : Heap := { h with
            blocks := updateB (fun bb => { bb with free := true }) h.blocks (get_addr p),
            requested_size := h.requested_size - (b.size : Int) } with hh1
        have hbl1 : h1.blocks = layout 0 none (pre ++ abT :: rest) := by
          show updateB _ h.blocks _ = _
          rw [hbl, hmap, hbs1]
        have hhd1 : h1.head = topA 0 (pre ++ abT :: rest) := by
          show h.head = _
          rw [hhd, hpz]
          exact topA_zip_congr pre rest 0 ab abT rfl
        have hbrk1 : h1.brk = spanLen (pre ++ abT :: rest) := by
          show h.brk = _
          rw [hbrk, hpz, spanLen_append, spanLen_append, spanLen_cons, spanLen_cons]
        rw [hpz] at hnaf
        have hcpre : List.Chain' adjOK pre := (List.chain'_append.mp hnaf).1
        have hcmid : List.Chain' adjOK (ab :: rest) := (List.chain'_append.mp hnaf).2.1
        rw [hpz] at hacc
        have hacc1 : freeSumI (pre ++ abT :: rest) ≤
            h1.allocated_size - h1.requested_size := by
          show _ ≤ h.allocated_size - (h.requested_size - (b.size : Int))
          rw [freeSumI_append, freeSumI_cons] at hacc ⊢
          have e1 : (if abT.free = true then (abT.size : Int) else 0) = (ab.size : Int) := by
            rw [habT]
            simp
          have e2 : (if ab.free = true then (ab.size : Int) else 0) = 0 := by
            simp [habf]
          rw [e1]
          rw [e2] at hacc
          rw [hsize]
          omega
        have hg1 : getA 0 (get_addr p) (pre ++ abT :: rest) = some (abT, rest) := by
          rw [haz']
          have := getA_at pre abT rest 0
          simpa using this
        cases rest with
        | nil =>
          rw [coalesce_prev_at_top h1 (pre ++ [abT]) (get_addr p) abT hbl1 hg1]
          rw [haz']
          exact Inv_coalesce_next_stage h1 pre abT [] hbl1 hhd1 hbrk1 rfl hcpre
            (List.chain'_singleton abT) hacc1
        | cons ub post =>
          by_cases huf : ub.free = true
          · have hco := coalesce_prev_at h1 (pre ++ abT :: ub :: post) (get_addr p)
                abT ub post hbl1 hg1 huf
            rw [hco]
            set M1 : AB := ⟨abT.size + ub.size + HDR, abT.free,
                abT.data ++ junkL HDR ++ ub.data⟩ with hM1
            have hmz : mergeAtA 0 (spanLen pre) (pre ++ abT :: ub :: post) =
                pre ++ M1 :: post := by
              have hz := mergeAtA_zipper pre abT (ub :: post) 0
              rw [show (0 : Nat) + spanLen pre = spanLen pre from by omega] at hz
              rw [hz]
              rfl
            have hub : List.Chain' adjOK (ub :: post) := (List.chain'_cons.mp hcmid).2
            rw [haz']
            refine Inv_coalesce_next_stage _ pre M1 post ?_ ?_ ?_ rfl hcpre ?_ ?_
            · show layout 0 none (mergeAtA 0 (spanLen pre) (pre ++ abT :: ub :: post)) = _
              rw [hmz]
            · show (if post = [] then some (spanLen pre) else h1.head) = _
              cases post with
              | nil =>
                rw [if_pos rfl, topA_append _ _ _ (by simp), topA_single]
                simp
              | cons q p2 =>
                rw [if_neg (by simp), hhd1, topA_append _ _ _ (by simp),
                    topA_append _ _ _ (by simp)]
                have e1 := @topA_cons_of_ne (0 + spanLen pre) abT (ub :: q :: p2)
                    (by simp)
                have e2 := @topA_cons_of_ne (0 + spanLen pre + HDR + abT.size) ub
                    (q :: p2) (by simp)
                have e3 := @topA_cons_of_ne (0 + spanLen pre) M1 (q :: p2) (by simp)
                rw [e1, e2, e3]
                have e : 0 + spanLen pre + HDR + abT.size + HDR + ub.size =
                    0 + spanLen pre + HDR + M1.size := by
                  rw [hM1]
                  show _ = 0 + spanLen pre + HDR + (abT.size + ub.size + HDR)
                  omega
                rw [e]
            · show h1.brk = _
              rw [hbrk1, spanLen_append, spanLen_append, spanLen_cons, spanLen_cons,
                  spanLen_cons]
              show spanLen pre + (HDR + abT.size + (HDR + ub.size + spanLen post)) =
                  spanLen pre + (HDR + (abT.size + ub.size + HDR) + spanLen post)
              omega
            · rw [List.chain'_cons']
              refine ⟨?_, (List.chain'_cons'.mp hub).2⟩
              intro y hy hM1f
              exact (List.chain'_cons'.mp hub).1 y hy huf
            · show freeSumI (pre ++ M1 :: post) ≤
                  h1.allocated_size - (h1.requested_size - (HDR : Int))
              rw [freeSumI_append, freeSumI_cons]
              rw [freeSumI_append, freeSumI_cons, freeSumI_cons] at hacc1
              have e1 : (if M1.free = true then (M1.size : Int) else 0) =
                  ((abT.size + ub.size + HDR : Nat) : Int) := by
                rw [hM1, habT]
                simp
              have e2 : (if abT.free = true then (abT.size : Int) else 0) =
                  (abT.size : Int) := by
                rw [habT]
                simp
              have e3 : (if ub.free = true then (ub.size : Int) else 0) = (ub.size : Int) := by
                simp [huf]
              rw [e1]
              rw [e2, e3] at hacc1
              push_cast
              push_cast at hacc1
              omega
          · have huf' : ub.free = false := by
              cases hv : ub.free with
              | false => rfl
              | true => exact absurd hv huf
            rw [coalesce_prev_at_inuse h1 (pre ++ abT :: ub :: post) (get_addr p)
                abT ub post hbl1 hg1 huf']
            rw [haz']
            refine Inv_coalesce_next_stage h1 pre abT (ub :: post) hbl1 hhd1 hbrk1 rfl
              hcpre ?_ hacc1
            rw [List.chain'_cons]
            exact ⟨fun _ => huf', (List.chain'_cons.mp hcmid).2⟩

theorem HDR_le_slack : HDR ≤ 1024 := by decide

/-- The first-fit scan only returns the address of a live, free header
whose capacity covers the request. -/
theorem findFit_sound {blocks : List (Nat × mem_block)} {n : Nat} :
    ∀ {fuel : Nat} {p? : Option Nat} {a : Nat},
    findFit blocks n p? fuel = some a →
    ∃ b, lookupB blocks a = some b ∧ b.free = true ∧ n ≤ b.size := by
  intro fuel
  induction fuel with
  | zero => intro p? a hf; cases p? <;> simp [findFit] at hf
  | succ fuel ih =>
    intro p? a hf
    cases p? with
    | none => simp [findFit] at hf
    | some x =>
      rw [findFit] at hf
      cases hl : lookupB blocks x with
      | none => rw [hl] at hf; simp at hf
      | some b =>
        rw [hl] at hf
        dsimp only at hf
        by_cases hcond : b.free = true ∧ n ≤ b.size
        · rw [if_pos hcond] at hf
          obtain rfl : x = a := Option.some_inj.mp hf
          exact ⟨b, hl, hcond.1, hcond.2⟩
        · rw [if_neg hcond] at hf
          exact ih hf

/-- The heap state built by `malloc`'s growth branch satisfies the
invariant: the fresh in-use block is stacked on top of the old layout. -/
theorem inv_growth (h : Heap) (bs : List AB) (n : Nat)
    (hbl : h.blocks = layout 0 none bs) (hhd : h.head = topA 0 bs)
    (hbrk : h.brk = spanLen bs) (hnaf : NoAdjFree bs)
    (hacc : freeSumI bs ≤ h.allocated_size - h.requested_size) :
    Inv { h with
          blocks := (match h.head with
                     | some hd => updateB (fun bb => { bb with prev := some h.brk }) h.blocks hd
                     | none => h.blocks) ++
            [(h.brk, ⟨n, false, h.brk + HDR, h.head,
              (match h.head with
               | some hd =>
                 (match lookupB h.blocks hd with
                  | some hb => hb.prev
                  | none => none)
               | none => none), junkL n⟩)],
          head := some h.brk,
          brk := h.brk + (HDR + n),
          allocated_size := h.allocated_size + ((n : Int) + HDR),
          requested_size := h.requested_size + ((n : Int) + HDR) } := by
  have hnafG : NoAdjFree (bs ++ [⟨n, false, junkL n⟩]) := by
    rw [NoAdjFree, List.chain'_append]
    refine ⟨hnaf, List.chain'_singleton _, ?_⟩
    intro x hx y hy
    simp only [List.head?_cons, Option.mem_def, Option.some_inj] at hy
    subst hy
    intro hxf
    rfl
  have haccG : freeSumI (bs ++ [⟨n, false, junkL n⟩]) ≤
      (h.allocated_size + ((n : Int) + HDR)) - (h.requested_size + ((n : Int) + HDR)) := by
    rw [freeSumI_append, freeSumI_cons]
    have e1 : (if (⟨n, false, junkL n⟩ : AB).free = true
        then ((⟨n, false, junkL n⟩ : AB).size : Int) else 0) = 0 := by simp
    rw [e1]
    show freeSumI bs + (0 + 0) ≤ _
    omega
  cases hh : h.head with
  | none =>
    have hbs : bs = [] := by
      cases bs with
      | nil => rfl
      | cons x xs =>
        rw [hhd] at hh
        simp [topA] at hh
    subst hbs
    refine ⟨[⟨n, false, junkL n⟩], ⟨?_, ?_, ?_⟩, by simpa using hnafG, by simpa using haccG⟩
    · show h.blocks ++ [(h.brk, ⟨n, false, h.brk + HDR, none, none, junkL n⟩)] =
          layout 0 none [⟨n, false, junkL n⟩]
      rw [hbl, hbrk]
      rfl
    · show some h.brk = topA 0 [⟨n, false, junkL n⟩]
      rw [hbrk]
      rfl
    · show h.brk + (HDR + n) = spanLen [⟨n, false, junkL n⟩]
      rw [hbrk]
      show 0 + (HDR + n) = HDR + n + 0
      omega
  | some hd =>
    have hht : topA 0 bs = some hd := by rw [← hhd]; exact hh
    obtain ⟨tb, hgt⟩ := getA_top hht
    obtain ⟨bl, hlhd⟩ := lookup_layout_ex none hgt
    rw [← hbl] at hlhd
    have hG := growthBlocksEq none n hht
    have e0 : (0 : Nat) + spanLen bs = spanLen bs := by omega
    rw [e0] at hG
    refine ⟨bs ++ [⟨n, false, junkL n⟩], ⟨?_, ?_, ?_⟩, hnafG, haccG⟩
    · show updateB (fun bb => { bb with prev := some h.brk }) h.blocks hd ++
          [(h.brk, ⟨n, false, h.brk + HDR, some hd,
            (match lookupB h.blocks hd with
             | some hb => hb.prev
             | none => none), junkL n⟩)] =
          layout 0 none (bs ++ [⟨n, false, junkL n⟩])
      rw [hlhd]
      show updateB (fun bb => { bb with prev := some h.brk }) h.blocks hd ++
          [(h.brk, ⟨n, false, h.brk + HDR, some hd, prevOf hd tb [], junkL n⟩)] = _
      rw [hbl, hbrk, prevOf_nil]
      exact hG
    · show some h.brk = topA 0 (bs ++ [⟨n, false, junkL n⟩])
      rw [topA_append _ _ _ (by simp), topA_single, e0, hbrk]
    · show h.brk + (HDR + n) = spanLen (bs ++ [⟨n, false, junkL n⟩])
      rw [hbrk, spanLen_append]
      show _ = spanLen bs + (HDR + n + 0)
      omega

/-- `malloc` preserves the allocator invariant. -/
theorem inv_malloc {h : Heap} (hi : Inv h) (n : Nat) : Inv (malloc h n).2 := by
  obtain ⟨bs, ⟨hbl, hhd, hbrk⟩, hnaf, hacc⟩ := hi
  by_cases hn : n = 0
  · rw [malloc, if_pos hn]
    exact ⟨bs, ⟨hbl, hhd, hbrk⟩, hnaf, hacc⟩
  · rw [malloc, if_neg hn]
    dsimp only
    by_cases hpre : (n : Int) ≤ h.allocated_size - h.requested_size
    · rw [if_pos hpre]
      cases hff : findFit h.blocks n h.head h.blocks.length with
      | none =>
        dsimp only
        by_cases hgl : h.brk + (HDR + n) ≤ h.limit
        · rw [if_pos hgl]
          exact inv_growth h bs n hbl hhd hbrk hnaf hacc
        · rw [if_neg hgl]
          exact ⟨bs, ⟨hbl, hhd, hbrk⟩, hnaf, hacc⟩
      | some a =>
        dsimp only
        cases hlb : lookupB h.blocks a with
        | none => exact ⟨bs, ⟨hbl, hhd, hbrk⟩, hnaf, hacc⟩
        | some b =>
          dsimp only
          obtain ⟨b', hlb', hbf, hbsz⟩ := findFit_sound hff
          rw [hlb] at hlb'
          have hbb : b' = b := (Option.some_inj.mp hlb').symm
          rw [hbb] at hbf hbsz
          have hlb0 := hlb
          rw [hbl] at hlb0
          obtain ⟨ab, rest, hg, hsize, hfree, hptr, hprev, hdata⟩ := getA_of_lookup hlb0
          obtain ⟨pre, hpz, haz⟩ := getA_zipper hg
          have habf : ab.free = true := by rw [← hfree]; exact hbf
          have habsz : n ≤ ab.size := by rw [← hsize]; exact hbsz
          rw [hpz] at hnaf
          have hcpre : List.Chain' adjOK pre := (List.chain'_append.mp hnaf).1
          have hcmid : List.Chain' adjOK (ab :: rest) := (List.chain'_append.mp hnaf).2.1
          rw [hpz] at hacc
          by_cases hsp : 2 * n ≤ b.size ∧ 1024 ≤ b.size - n
          · rw [if_pos hsp]
            have hsz2 : n + HDR ≤ ab.size := by
              have h1 := hsp.2
              have h2 := HDR_le_slack
              rw [hsize] at h1
              omega
            have hsm := split_mem_at h bs a ab rest n hbl hg hsz2
            rw [hsm]
            dsimp only
            set lowF : AB := ⟨n, ab.free, ab.data.take n⟩ with hlowF
            set hiF : AB := ⟨ab.size - n - HDR, true, ab.data.drop (n + HDR)⟩ with hhiF
            have hSLz : splitAtA n 0 a bs = pre ++ lowF :: hiF :: rest := by
              rw [hpz, haz]
              exact splitAtA_zipper n pre ab rest 0
            have hga2 : getA 0 a (splitAtA n 0 a bs) = some (lowF, hiF :: rest) := by
              rw [hSLz, haz]
              exact getA_at pre lowF (hiF :: rest) 0
            obtain ⟨bl2, hlb2⟩ := lookup_layout_ex none hga2
            rw [hlb2]
            dsimp only
            set lowI : AB := ⟨n, false, ab.data.take n⟩ with hlowI
            have hmap2 := mapBlocksEq (fun bb => { bb with free := false })
                (fun x => { x with free := false }) (fun x P N PV => rfl) (fun x => rfl)
                none hga2
            have hmz2 : mapAtA (fun x => { x with free := false }) 0 a (splitAtA n 0 a bs) =
                pre ++ lowI :: hiF :: rest := by
              rw [hSLz, haz]
              rw [mapAtA_zipper _ pre lowF (hiF :: rest) 0]
            refine ⟨pre ++ lowI :: hiF :: rest, ⟨?_, ?_, ?_⟩, ?_, ?_⟩
            · show updateB _ (layout 0 none (splitAtA n 0 a bs)) a = _
              rw [hmap2, hmz2]
            · show (if rest = [] then some (a + HDR + n) else h.head) =
                  topA 0 (pre ++ lowI :: hiF :: rest)
              cases rest with
              | nil =>
                rw [if_pos rfl, topA_append _ _ _ (by simp)]
                have e1 := @topA_cons_of_ne (0 + spanLen pre) lowI ([hiF]) (by simp)
                rw [e1, topA_single]
                have : a + HDR + n = 0 + spanLen pre + HDR + lowI.size := by
                  show a + HDR + n = 0 + spanLen pre + HDR + n
                  omega
                rw [this]
              | cons q p2 =>
                rw [if_neg (by simp), hhd, hpz, topA_append _ _ _ (by simp),
                    topA_append _ _ _ (by simp)]
                have e1 := @topA_cons_of_ne (0 + spanLen pre) ab (q :: p2) (by simp)
                have e2 := @topA_cons_of_ne (0 + spanLen pre) lowI (hiF :: q :: p2)
                    (by simp)
                have e3 := @topA_cons_of_ne (0 + spanLen pre + HDR + lowI.size) hiF
                    (q :: p2) (by simp)
                rw [e1, e2, e3]
                have e : 0 + spanLen pre + HDR + lowI.size + HDR + hiF.size =
                    0 + spanLen pre + HDR + ab.size := by
                  rw [hlowI, hhiF]
                  show 0 + spanLen pre + HDR + n + HDR + (ab.size - n - HDR) = _
                  omega
                rw [e]
            · show h.brk = spanLen (pre ++ lowI :: hiF :: rest)
              rw [hbrk, hpz, spanLen_append, spanLen_append, spanLen_cons, spanLen_cons,
                  spanLen_cons]
              rw [hlowI, hhiF]
              show spanLen pre + (HDR + ab.size + spanLen rest) =
                  spanLen pre + (HDR + n + (HDR + (ab.size - n - HDR) + spanLen rest))
              omega
            · rw [NoAdjFree, List.chain'_append]
              refine ⟨hcpre, ?_, ?_⟩
              · rw [List.chain'_cons]
                refine ⟨fun hcon => absurd hcon (by simp [hlowI]), ?_⟩
                rw [List.chain'_cons']
                refine ⟨?_, (List.chain'_cons'.mp hcmid).2⟩
                intro y hy hhiFf
                exact (List.chain'_cons'.mp hcmid).1 y hy habf
              · intro x hx y hy
                simp only [List.head?_cons, Option.mem_def, Option.some_inj] at hy
                subst hy
                intro hxf
                rw [hlowI]
            · show freeSumI (pre ++ lowI :: hiF :: rest) ≤
                  h.allocated_size - (h.requested_size + (HDR : Int) +
                    ((⟨n, ab.free, a + HDR, bl2, prevOf a lowF (hiF :: rest),
                       ab.data.take n⟩ : mem_block).size : Int))
              rw [freeSumI_append, freeSumI_cons, freeSumI_cons]
              rw [freeSumI_append, freeSumI_cons] at hacc
              have e1 : (if lowI.free = true then (lowI.size : Int) else 0) = 0 := by
                rw [hlowI]
                simp
              have e2 : (if hiF.free = true then (hiF.size : Int) else 0) =
                  ((ab.size - n - HDR : Nat) : Int) := by
                rw [hhiF]
                simp
              have e3 : (if ab.free = true then (ab.size : Int) else 0) = (ab.size : Int) := by
                simp [habf]
              rw [e1, e2]
              rw [e3] at hacc
              show _ ≤ h.allocated_size - (h.requested_size + (HDR : Int) + (n : Int))
              omega
          · rw [if_neg hsp]
            rw [hlb]
            dsimp only
            set abI : AB := { ab with free := false } with habI
            have hmap2 := mapBlocksEq (fun bb => { bb with free := false })
                (fun x => { x with free := false }) (fun x P N PV => rfl) (fun x => rfl)
                none hg
            have hmz2 : mapAtA (fun x => { x with free := false }) 0 a bs =
                pre ++ abI :: rest := by
              rw [hpz, haz]
              exact mapAtA_zipper _ pre ab rest 0
            refine ⟨pre ++ abI :: rest, ⟨?_, ?_, ?_⟩, ?_, ?_⟩
            · show updateB _ h.blocks a = _
              rw [hbl, hmap2, hmz2]
            · show h.head = topA 0 (pre ++ abI :: rest)
              rw [hhd, hpz]
              exact topA_zip_congr pre rest 0 ab abI rfl
            · show h.brk = spanLen (pre ++ abI :: rest)
              rw [hbrk, hpz, spanLen_append, spanLen_append, spanLen_cons, spanLen_cons]
            · rw [NoAdjFree, List.chain'_append]
              refine ⟨hcpre, ?_, ?_⟩
              · rw [List.chain'_cons']
                refine ⟨?_, (List.chain'_cons'.mp hcmid).2⟩
                intro y hy hcon
                exact absurd hcon (by simp [habI])
              · intro x hx y hy
                simp only [List.head?_cons, Option.mem_def, Option.some_inj] at hy
                subst hy
                intro hxf
                rw [habI]
            · show freeSumI (pre ++ abI :: rest) ≤
                  h.allocated_size - (h.requested_size + (b.size : Int))
              rw [freeSumI_append, freeSumI_cons]
              rw [freeSumI_append, freeSumI_cons] at hacc
              have e1 : (if abI.free = true then (abI.size : Int) else 0) = 0 := by
                rw [habI]
                simp
              have e2 : (if ab.free = true then (ab.size : Int) else 0) = (ab.size : Int) := by
                simp [habf]
              rw [e1]
              rw [e2] at hacc
              rw [hsize]
              omega
    · rw [if_neg hpre]
      dsimp only
      by_cases hgl : h.brk + (HDR + n) ≤ h.limit
      · rw [if_pos hgl]
        exact inv_growth h bs n hbl hhd hbrk hnaf hacc
      · rw [if_neg hgl]
        exact ⟨bs, ⟨hbl, hhd, hbrk⟩, hnaf, hacc⟩

/-- Updating only the payload bytes of one header (or of no header, when
the address is not a live key) preserves the master invariant: sizes,
flags, links and both counters are untouched. -/
theorem inv_update_data (h : Heap) (g : List Nat → List Nat) (a : Nat) (hi : Inv h) :
    Inv { h with blocks := updateB (fun b => { b with data := g b.data }) h.blocks a } := by
  obtain ⟨bs, ⟨hbl, hhd, hbrk⟩, hnaf, hacc⟩ := hi
  cases hlk : lookupB h.blocks a with
  | none =>
    refine ⟨bs, ⟨?_, hhd, hbrk⟩, hnaf, hacc⟩
    show updateB _ h.blocks a = layout 0 none bs
    rw [updateB_no_key _ hlk, hbl]
  | some b =>
    have hlk0 := hlk
    rw [hbl] at hlk0
    obtain ⟨ab, rest, hg, hsize, hfree, hptr, hprev, hdata⟩ := getA_of_lookup hlk0
    obtain ⟨pre, hpz, haz⟩ := getA_zipper hg
    set abD : AB := { ab with data := g ab.data } with habD
    have hmap := mapBlocksEq (fun bb => { bb with data := g bb.data })
        (fun x => { x with data := g x.data }) (fun x P N PV => rfl) (fun x => rfl)
        none hg
    have hmz : mapAtA (fun x => { x with data := g x.data }) 0 a bs = pre ++ abD :: rest := by
      rw [hpz, haz]
      exact mapAtA_zipper _ pre ab rest 0
    refine ⟨pre ++ abD :: rest, ⟨?_, ?_, ?_⟩, ?_, ?_⟩
    · show updateB _ h.blocks a = _
      rw [hbl, hmap, hmz]
    · show h.head = topA 0 (pre ++ abD :: rest)
      rw [hhd, hpz]
      exact topA_zip_congr pre rest 0 ab abD rfl
    · show h.brk = spanLen (pre ++ abD :: rest)
      rw [hbrk, hpz, spanLen_append, spanLen_append, spanLen_cons, spanLen_cons]
    · rw [hpz] at hnaf
      rw [NoAdjFree, List.chain'_append] at hnaf ⊢
      obtain ⟨h1, h2, h3⟩ := hnaf
      refine ⟨h1, ?_, ?_⟩
      · rw [List.chain'_cons'] at h2 ⊢
        exact ⟨h2.1, h2.2⟩
      · intro x hx y hy
        simp only [List.head?_cons, Option.mem_def, Option.some_inj] at hy
        subst hy
        exact h3 x hx ab rfl
    · show freeSumI (pre ++ abD :: rest) ≤ h.allocated_size - h.requested_size
      rw [hpz] at hacc
      rw [freeSumI_append, freeSumI_cons]
      rw [freeSumI_append, freeSumI_cons] at hacc
      exact hacc

/-- `memcpy` between payloads only rewrites payload bytes, so it preserves
the master invariant. -/
theorem inv_memcpyF {h : Heap} (hi : Inv h) (dst src n : Nat) : Inv (memcpyF h dst src n) := by
  rw [memcpyF]
  cases hsb : lookupB h.blocks (get_addr src) with
  | none => exact hi
  | some sb =>
    dsimp only
    exact inv_update_data h (fun d => List.take n sb.data ++ List.drop n d) (get_addr dst) hi

/-- `calloc` preserves the allocator invariant: it is `malloc` followed by
a payload-only `memset`. -/
theorem inv_calloc {h : Heap} (hi : Inv h) (n m : Nat) : Inv (calloc h n m).2 := by
  have hm := inv_malloc hi (n * m % SIZE_MOD)
  rw [calloc]
  cases hmm : malloc h (n * m % SIZE_MOD) with
  | mk o h1 =>
    rw [hmm] at hm
    cases o with
    | none => exact hm
    | some p =>
      dsimp only
      exact inv_update_data h1
        (fun d => List.replicate (n * m % SIZE_MOD) 0 ++ List.drop (n * m % SIZE_MOD) d)
        (get_addr p) hm

/-- The in-place absorb step of `realloc`: an in-use block whose upper
(`prev`-linked) neighbour is free absorbs it after `requested_size` was
pre-charged with the neighbour's capacity; the master invariant is
preserved. -/
theorem Inv_absorb_stage (h1 : Heap) (pre : List AB) (ab ub : AB) (post : List AB)
    (hbl : h1.blocks = layout 0 none (pre ++ ab :: ub :: post))
    (hhd : h1.head = topA 0 (pre ++ ab :: ub :: post))
    (hbrk : h1.brk = spanLen (pre ++ ab :: ub :: post))
    (habf : ab.free = false)
    (huf : ub.free = true)
    (hnaf : NoAdjFree (pre ++ ab :: ub :: post))
    (hacc : freeSumI (pre ++ ab :: ub :: post) ≤
      h1.allocated_size - h1.requested_size + (ub.size : Int)) :
    Inv (coalesce_prev h1 (spanLen pre)) := by
  have hga : getA 0 (spanLen pre) (pre ++ ab :: ub :: post) = some (ab, ub :: post) := by
    have := getA_at pre ab (ub :: post) 0
    simpa using this
  have hco := coalesce_prev_at h1 (pre ++ ab :: ub :: post) (spanLen pre) ab ub post hbl hga huf
  rw [hco]
  have hmz : mergeAtA 0 (spanLen pre) (pre ++ ab :: ub :: post) =
      pre ++ ⟨ab.size + ub.size + HDR, ab.free, ab.data ++ junkL HDR ++ ub.data⟩ :: post := by
    have := mergeAtA_zipper pre ab (ub :: post) 0
    rw [show (0 : Nat) + spanLen pre = spanLen pre from by omega] at this
    rw [this]
    rfl
  set M : AB := ⟨ab.size + ub.size + HDR, ab.free, ab.data ++ junkL HDR ++ ub.data⟩ with hM
  have hcpre : List.Chain' adjOK pre := (List.chain'_append.mp hnaf).1
  have hcmid : List.Chain' adjOK (ab :: ub :: post) := (List.chain'_append.mp hnaf).2.1
  have hcpost : List.Chain' adjOK post :=
    (List.chain'_cons'.mp (List.chain'_cons'.mp hcmid).2).2
  refine ⟨pre ++ M :: post, ⟨by simp only [hmz], ?_, ?_⟩, ?_, ?_⟩
  · show (if post = [] then some (spanLen pre) else h1.head) = topA 0 (pre ++ M :: post)
    cases post with
    | nil =>
      rw [if_pos rfl, topA_append _ _ _ (by simp), topA_single]
      simp
    | cons q p2 =>
      rw [if_neg (by simp), hhd, topA_append _ _ _ (by simp), topA_append _ _ _ (by simp)]
      have e1 := @topA_cons_of_ne (0 + spanLen pre) ab (ub :: q :: p2) (by simp)
      have e2 := @topA_cons_of_ne (0 + spanLen pre + HDR + ab.size) ub (q :: p2) (by simp)
      have e3 := @topA_cons_of_ne (0 + spanLen pre) M (q :: p2) (by simp)
      rw [e1, e2, e3]
      have e : 0 + spanLen pre + HDR + ab.size + HDR + ub.size =
          0 + spanLen pre + HDR + M.size := by
        rw [hM]
        show _ = 0 + spanLen pre + HDR + (ab.size + ub.size + HDR)
        omega
      rw [e]
  · show h1.brk = spanLen (pre ++ M :: post)
    rw [hbrk, spanLen_append, spanLen_append, spanLen_cons, spanLen_cons, spanLen_cons]
    rw [hM]
    show spanLen pre + (HDR + ab.size + (HDR + ub.size + spanLen post)) =
        spanLen pre + (HDR + (ab.size + ub.size + HDR) + spanLen post)
    omega
  · rw [NoAdjFree, List.chain'_append]
    refine ⟨hcpre, ?_, ?_⟩
    · rw [List.chain'_cons']
      refine ⟨?_, hcpost⟩
      intro y hy hMf
      have hMfree : M.free = false := habf
      rw [hMf] at hMfree
      simp at hMfree
    · intro x hx y hy
      simp only [List.head?_cons, Option.mem_def, Option.some_inj] at hy
      subst hy
      intro hxf
      exact habf
  · show freeSumI (pre ++ M :: post) ≤ h1.allocated_size - (h1.requested_size - (HDR : Int))
    rw [freeSumI_append, freeSumI_cons]
    rw [freeSumI_append, freeSumI_cons, freeSumI_cons] at hacc
    have e1 : (if M.free = true then (M.size : Int) else 0) = 0 := by
      have hMfree : M.free = false := habf
      rw [hMfree]
      simp
    have e2 : (if ab.free = true then (ab.size : Int) else 0) = 0 := by
      rw [habf]
      simp
    have e3 : (if ub.free = true then (ub.size : Int) else 0) = (ub.size : Int) := by
      rw [huf]
      simp
    rw [e1]
    rw [e2, e3] at hacc
    have hpos := HDR_pos
    omega

/-- The allocate-copy-release tail of `realloc` preserves the invariant
whenever it completes: it is `malloc`, a payload-only `memcpy`, and a
`free`. -/
theorem inv_reallocCopy {h : Heap} {ptrv size oldSize : Nat} {o : Option Nat} {h' : Heap}
    (hi : Inv h) (he : reallocCopy h ptrv size oldSize = .ok (o, h')) : Inv h' := by
  rw [reallocCopy] at he
  have hm := inv_malloc hi size
  cases hmm : malloc h size with
  | mk mo h1 =>
    rw [hmm] at he hm
    cases mo with
    | none => cases he
    | some np =>
      dsimp only at he hm
      have h2i : Inv (memcpyF h1 np ptrv (if size ≤ oldSize then size else oldSize)) :=
        inv_memcpyF hm np ptrv _
      cases hf : free (memcpyF h1 np ptrv (if size ≤ oldSize then size else oldSize)) ptrv with
      | error e =>
        rw [hf] at he
        cases he
      | ok h3 =>
        rw [hf] at he
        dsimp only at he
        injection he with hpair
        injection hpair with ho hh
        rw [← hh]
        exact inv_free h2i hf

/-- `realloc` preserves the allocator invariant on every completed (non
aborting) execution. -/
theorem inv_realloc {h h' : Heap} {p n : Nat} {o : Option Nat} (hi : Inv h)
    (he : realloc h p n = .ok (o, h')) : Inv h' := by
  rw [realloc] at he
  cases hf0 : (if n = 0 then free h p else .ok h) with
  | error e =>
    rw [hf0] at he
    cases he
  | ok h0 =>
    rw [hf0] at he
    dsimp only at he
    have h0i : Inv h0 := by
      by_cases hn : n = 0
      · rw [if_pos hn] at hf0
        exact inv_free hi hf0
      · rw [if_neg hn] at hf0
        cases hf0
        exact hi
    by_cases hp : p = 0
    · rw [if_pos hp] at he
      injection he with hpair
      have hmi := inv_malloc h0i n
      rw [hpair] at hmi
      exact hmi
    · rw [if_neg hp] at he
      cases hlk : lookupB h0.blocks (get_addr p) with
      | none =>
        rw [hlk] at he
        cases he
      | some block =>
        rw [hlk] at he
        dsimp only at he
        by_cases hptr : block.ptr = p
        · rw [if_neg (show ¬block.ptr ≠ p from fun hc => hc hptr)] at he
          by_cases hbf : block.free = true
          · rw [if_pos hbf] at he
            cases he
          · rw [if_neg hbf] at he
            have hbf' : block.free = false := by
              cases hc : block.free with
              | false => rfl
              | true => exact absurd hc hbf
            by_cases hsz : n ≤ block.size
            · rw [if_pos hsz] at he
              injection he with hpair
              injection hpair with ho hh
              rw [← hh]
              exact h0i
            · rw [if_neg hsz] at he
              cases hbp : block.prev with
              | none =>
                rw [hbp] at he
                exact inv_reallocCopy h0i he
              | some pv =>
                rw [hbp] at he
                dsimp only at he
                cases hlkp : lookupB h0.blocks pv with
                | none =>
                  rw [hlkp] at he
                  cases he
                | some pb =>
                  rw [hlkp] at he
                  dsimp only at he
                  by_cases hpbf : pb.free = true
                  · rw [if_pos hpbf] at he
                    by_cases habs : n ≤ block.size + pb.size + HDR
                    · rw [if_pos habs] at he
                      obtain ⟨bs, ⟨hbl, hhd, hbrk⟩, hnaf, hacc⟩ := h0i
                      have hlk0 := hlk
                      rw [hbl] at hlk0
                      obtain ⟨ab, rest, hg, hsize, hfree, hptrE, hprevE, hdataE⟩ :=
                        getA_of_lookup hlk0
                      have habf : ab.free = false := by
                        rw [← hfree]
                        exact hbf'
                      cases rest with
                      | nil =>
                        rw [hprevE] at hbp
                        simp [prevOf] at hbp
                      | cons ub post =>
                        have hpv : pv = get_addr p + HDR + ab.size := by
                          rw [hprevE] at hbp
                          simp only [prevOf, Option.some_inj] at hbp
                          exact hbp.symm
                        have hstep := lookup_layout_step none hg
                        rw [← hbl] at hstep
                        rw [hpv, hstep] at hlkp
                        have hpbeq : pb =
                            ⟨ub.size, ub.free, get_addr p + HDR + ab.size + HDR,
                             some (get_addr p), prevOf (get_addr p + HDR + ab.size) ub post,
                             ub.data⟩ := (Option.some_inj.mp hlkp).symm
                        have huf : ub.free = true := by
                          rw [hpbeq] at hpbf
                          exact hpbf
                        have hpbsz : pb.size = ub.size := by
                          rw [hpbeq]
                        obtain ⟨pre, hpz, haz⟩ := getA_zipper hg
                        rw [hpz] at hnaf hacc
                        have hstage := Inv_absorb_stage
                            { h0 with requested_size := h0.requested_size + (pb.size : Int) }
                            pre ab ub post
                            (by show h0.blocks = _; rw [hbl, hpz])
                            (by show h0.head = _; rw [hhd, hpz])
                            (by show h0.brk = _; rw [hbrk, hpz])
                            habf huf hnaf
                            (by
                              show freeSumI _ ≤
                                h0.allocated_size -
                                  (h0.requested_size + (pb.size : Int)) + (ub.size : Int)
                              rw [hpbsz]
                              omega)
                        have haddr : get_addr p = spanLen pre := by omega
                        rw [haddr] at he
                        cases hlk2 : lookupB
                            (coalesce_prev
                              { h0 with
                                  requested_size := h0.requested_size + (pb.size : Int) }
                              (spanLen pre)).blocks (spanLen pre) with
                        | none =>
                          rw [hlk2] at he
                          cases he
                        | some b2 =>
                          rw [hlk2] at he
                          dsimp only at he
                          injection he with hpair
                          injection hpair with ho hh
                          rw [← hh]
                          exact hstage
                    · rw [if_neg habs] at he
                      exact inv_reallocCopy h0i he
                  · rw [if_neg hpbf] at he
                    exact inv_reallocCopy h0i he
        · rw [if_pos hptr] at he
          cases he

/-- Every heap state reachable through the four public operations
satisfies the master invariant. -/
theorem inv_reachable {h : Heap} (hr : Reachable h) : Inv h := by
  induction hr with
  | init limit =>
    exact ⟨[], ⟨rfl, rfl, rfl⟩, List.chain'_nil, by simp [initHeap, freeSumI]⟩
  | mstep n hr ih => exact inv_malloc ih n
  | cstep n m hr ih => exact inv_calloc ih n m
  | fstep p hr ih =>
    rw [runFree]
    split
    · next h2 hf => exact inv_free ih hf
    · next e hf => exact ih
  | rstep p n hr ih =>
    rw [runRealloc]
    split
    · next r hf => exact inv_realloc ih hf
    · next e hf => exact ih

/-! ### The layout's registry is a well-formed doubly-linked list -/

theorem layout_length : ∀ (bs : List AB) (base : Nat) (below : Option Nat),
    (layout base below bs).length = bs.length := by
  intro bs
  induction bs with
  | nil => intro base below; rfl
  | cons ab rest ih =>
    intro base below
    show (layout (base + HDR + ab.size) (some base) rest).length + 1 = rest.length + 1
    rw [ih]

theorem getA_lt {bs : List AB} : ∀ {base a : Nat} {x : AB × List AB},
    getA base a bs = some x → a < base + spanLen bs := by
  induction bs with
  | nil => intro base a x h; simp [getA] at h
  | cons ab rest ih =>
    intro base a x h
    have hpos := HDR_pos
    by_cases hb : base = a
    · subst hb
      show base < base + (HDR + ab.size + spanLen rest)
      omega
    · simp only [getA, if_neg hb] at h
      have := ih h
      show a < base + (HDR + ab.size + spanLen rest)
      omega

theorem lookup_layout_at (ab : AB) (rest : List AB) :
    ∀ (pre : List AB) (base : Nat) (below : Option Nat),
    lookupB (layout base below (pre ++ ab :: rest)) (base + spanLen pre) =
      some ⟨ab.size, ab.free, base + spanLen pre + HDR, belowOf base below pre,
            prevOf (base + spanLen pre) ab rest, ab.data⟩ := by
  intro pre
  induction pre with
  | nil =>
    intro base below
    have h0 : base + spanLen [] = base := by simp [spanLen]
    rw [h0]
    exact lookup_layout_base base below ab rest
  | cons lb pre' ih =>
    intro base below
    have hpos := HDR_pos
    have hne : ¬(base = base + spanLen (lb :: pre')) := by
      show ¬(base = base + (HDR + lb.size + spanLen pre'))
      omega
    simp only [List.cons_append, layout, lookupB]
    rw [if_neg hne]
    have harith : base + spanLen (lb :: pre') = (base + HDR + lb.size) + spanLen pre' := by
      show base + (HDR + lb.size + spanLen pre') = _
      omega
    rw [harith]
    exact ih (base + HDR + lb.size) (some base)

theorem belowOf_snoc (lb : AB) : ∀ (pre' : List AB) (base : Nat) (below : Option Nat),
    belowOf base below (pre' ++ [lb]) = some (base + spanLen pre') := by
  intro pre'
  induction pre' with
  | nil =>
    intro base below
    show some base = some (base + spanLen [])
    simp [spanLen]
  | cons q pre0 ih =>
    intro base below
    show belowOf (base + HDR + q.size) (some base) (pre0 ++ [lb]) = _
    rw [ih (base + HDR + q.size) (some base)]
    have harith : base + HDR + q.size + spanLen pre0 = base + spanLen (q :: pre0) := by
      show _ = base + (HDR + q.size + spanLen pre0)
      omega
    rw [harith]

theorem belowOf_ne_nil : ∀ (pre : List AB), pre ≠ [] → ∀ (base : Nat) (below : Option Nat),
    belowOf base below pre = topA base pre := by
  intro pre
  induction pre with
  | nil => intro hc; exact absurd rfl hc
  | cons ab pre' ih =>
    intro hne base below
    cases hp' : pre' with
    | nil =>
      show some base = topA base [ab]
      rw [topA_single]
    | cons q pre0 =>
      rw [← hp']
      have hpne : pre' ≠ [] := by rw [hp']; simp
      show belowOf (base + HDR + ab.size) (some base) pre' = _
      rw [ih hpne (base + HDR + ab.size) (some base),
          topA_cons_of_ne base ab hpne]

theorem mem_layout {bs : List AB} : ∀ {base : Nat} {below : Option Nat}
    {kb : Nat × mem_block}, kb ∈ layout base below bs →
    ∃ pre ab rest, bs = pre ++ ab :: rest ∧
      kb = (base + spanLen pre,
            ⟨ab.size, ab.free, base + spanLen pre + HDR, belowOf base below pre,
             prevOf (base + spanLen pre) ab rest, ab.data⟩) := by
  induction bs with
  | nil => intro base below kb h; simp [layout] at h
  | cons ab0 bs0 ih =>
    intro base below kb h
    rw [show layout base below (ab0 :: bs0) =
          (base, ⟨ab0.size, ab0.free, base + HDR, below, prevOf base ab0 bs0, ab0.data⟩) ::
            layout (base + HDR + ab0.size) (some base) bs0 from rfl,
        List.mem_cons] at h
    cases h with
    | inl hkb =>
      refine ⟨[], ab0, bs0, rfl, ?_⟩
      rw [hkb]
      rfl
    | inr hkb =>
      obtain ⟨pre0, ab, rest, hbs0, hkbe⟩ := ih hkb
      refine ⟨ab0 :: pre0, ab, rest, by rw [hbs0]; rfl, ?_⟩
      have harith : base + spanLen (ab0 :: pre0) = base + HDR + ab0.size + spanLen pre0 := by
        show base + (HDR + ab0.size + spanLen pre0) = _
        omega
      rw [harith]
      exact hkbe

theorem addrsA_append : ∀ (l1 l2 : List AB) (base : Nat),
    addrsA base (l1 ++ l2) = addrsA base l1 ++ addrsA (base + spanLen l1) l2 := by
  intro l1
  induction l1 with
  | nil =>
    intro l2 base
    show addrsA base l2 = addrsA (base + spanLen []) l2
    simp [spanLen]
  | cons lb l1' ih =>
    intro l2 base
    show base :: addrsA (base + HDR + lb.size) (l1' ++ l2) = _
    rw [ih l2 (base + HDR + lb.size)]
    have harith : base + HDR + lb.size + spanLen l1' = base + spanLen (lb :: l1') := by
      show _ = base + (HDR + lb.size + spanLen l1')
      omega
    rw [harith]
    rfl

theorem mem_addrsA (ab : AB) (rest : List AB) : ∀ (pre : List AB) (base : Nat),
    base + spanLen pre ∈ addrsA base (pre ++ ab :: rest) := by
  intro pre
  induction pre with
  | nil =>
    intro base
    show base + spanLen [] ∈ base :: addrsA (base + HDR + ab.size) rest
    simp [spanLen]
  | cons lb pre' ih =>
    intro base
    show base + spanLen (lb :: pre') ∈
        base :: addrsA (base + HDR + lb.size) (pre' ++ ab :: rest)
    have harith : base + spanLen (lb :: pre') = base + HDR + lb.size + spanLen pre' := by
      show base + (HDR + lb.size + spanLen pre') = _
      omega
    rw [harith]
    exact List.mem_cons_of_mem base (ih (base + HDR + lb.size))

theorem chain_layout (B : List (Nat × mem_block)) : ∀ (bs : List AB) (base fuel : Nat),
    bs.length ≤ fuel →
    (∀ pre ab rest, bs = pre ++ ab :: rest →
      ∃ b, lookupB B (base + spanLen pre) = some b ∧ b.next = belowOf base none pre) →
    chainFromB B (topA base bs) fuel = (addrsA base bs).reverse := by
  intro bs
  induction bs using List.reverseRecOn with
  | nil =>
    intro base fuel hfuel hlk
    cases fuel with
    | zero => rfl
    | succ f => rfl
  | append_singleton bs' tb ih =>
    intro base fuel hfuel hlk
    cases fuel with
    | zero => simp at hfuel
    | succ f =>
      have hfl : bs'.length ≤ f := by
        rw [List.length_append] at hfuel
        simp at hfuel
        omega
      have htop : topA base (bs' ++ [tb]) = some (base + spanLen bs') := by
        rw [topA_append _ _ _ (by simp), topA_single]
      obtain ⟨b, hb, hbn⟩ := hlk bs' tb [] rfl
      rw [htop]
      show (match lookupB B (base + spanLen bs') with
            | none => [base + spanLen bs']
            | some b => (base + spanLen bs') :: chainFromB B b.next f) = _
      rw [hb]
      dsimp only
      rw [addrsA_append, List.reverse_append]
      show (base + spanLen bs') :: chainFromB B b.next f = _
      cases hbs' : bs' with
      | nil =>
        rw [hbn, hbs']
        cases f <;> rfl
      | cons q qs =>
        rw [← hbs']
        have hne : bs' ≠ [] := by rw [hbs']; simp
        rw [hbn, belowOf_ne_nil bs' hne base none]
        rw [ih base f hfl (fun pre ab rest hdec => by
          refine hlk pre ab (rest ++ [tb]) ?_
          rw [hdec]
          simp)]
        show _ = ((addrsA (base + spanLen bs') [tb]).reverse) ++ (addrsA base bs').reverse
        rfl

/-- For every heap realising a layout, the registry passes the executable
doubly-linked-list well-formedness check. -/
theorem linkWf_of_WfL {h : Heap} {bs : List AB} (hw : WfL h bs) : linkWfB h = true := by
  obtain ⟨hbl, hhd, hbrk⟩ := hw
  rw [linkWfB, Bool.and_eq_true]
  constructor
  · -- the head block has no prev link
    rcases List.eq_nil_or_concat bs with hnil | ⟨pre, tb, hsnoc⟩
    · subst hnil
      rw [hhd]
      rfl
    · rw [List.concat_eq_append] at hsnoc
      subst hsnoc
      have htop : topA 0 (pre ++ [tb]) = some (0 + spanLen pre) := by
        rw [topA_append _ _ _ (by simp), topA_single]
      rw [hhd, htop]
      dsimp only
      rw [hbl, lookup_layout_at tb [] pre 0 none]
      show decide (prevOf (0 + spanLen pre) tb [] = none) = true
      rfl
  · rw [List.all_eq_true]
    intro kb hkb
    rw [hbl] at hkb
    obtain ⟨pre, ab, rest, hbs, hkbe⟩ := mem_layout hkb
    rw [hkbe]
    dsimp only
    rw [Bool.and_eq_true, Bool.and_eq_true]
    refine ⟨⟨?_, ?_⟩, ?_⟩
    · -- the next-neighbour points back with its prev link
      rcases List.eq_nil_or_concat pre with hnil | ⟨pre', lb, hsnoc⟩
      · subst hnil
        rfl
      · rw [List.concat_eq_append] at hsnoc
        subst hsnoc
        rw [belowOf_snoc lb pre' 0 none]
        show (match lookupB h.blocks (0 + spanLen pre') with
              | some bn => decide (bn.prev = some (0 + spanLen (pre' ++ [lb])))
              | none => false) = true
        have hdec : bs = pre' ++ lb :: (ab :: rest) := by rw [hbs]; simp
        rw [hbl, hdec, lookup_layout_at lb (ab :: rest) pre' 0 none]
        dsimp only
        have e : (0 : Nat) + spanLen pre' + HDR + lb.size = 0 + spanLen (pre' ++ [lb]) := by
          rw [spanLen_append]
          show _ = 0 + (spanLen pre' + (HDR + lb.size + 0))
          omega
        refine decide_eq_true ?_
        show some (0 + spanLen pre' + HDR + lb.size) = _
        rw [e]
    · -- the prev-neighbour points back with its next link
      cases rest with
      | nil => rfl
      | cons ub post =>
        show (match lookupB h.blocks (0 + spanLen pre + HDR + ab.size) with
              | some bp => decide (bp.next = some (0 + spanLen pre))
              | none => false) = true
        have hdec : bs = (pre ++ [ab]) ++ ub :: post := by rw [hbs]; simp
        have e : (0 : Nat) + spanLen pre + HDR + ab.size = 0 + spanLen (pre ++ [ab]) := by
          rw [spanLen_append]
          show _ = 0 + (spanLen pre + (HDR + ab.size + 0))
          omega
        rw [e, hbl, hdec, lookup_layout_at ub post (pre ++ [ab]) 0 none]
        dsimp only
        rw [belowOf_snoc ab pre 0 none]
        refine decide_eq_true ?_
        rfl
    · -- every header is reached from the registry head along next links
      refine decide_eq_true ?_
      rw [hbl, hhd, layout_length]
      rw [chain_layout (layout 0 none bs) bs 0 bs.length le_rfl (fun p a r hdec => by
        refine ⟨⟨a.size, a.free, 0 + spanLen p + HDR, belowOf 0 none p,
                 prevOf (0 + spanLen p) a r, a.data⟩, ?_, rfl⟩
        rw [hdec]
        exact lookup_layout_at a r p 0 none)]
      rw [List.mem_reverse, hbs]
      exact mem_addrsA ab rest pre 0

/-! ### Postconditions of `malloc` needed by the claims -/

theorem lookupB_snoc_self (l : List (Nat × mem_block)) (a : Nat) (b : mem_block) :
    ∃ b2, lookupB (l ++ [(a, b)]) a = some b2 := by
  induction l with
  | nil => exact ⟨b, by simp [lookupB]⟩
  | cons kb rest ih =>
    obtain ⟨k, x⟩ := kb
    by_cases hk : k = a
    · exact ⟨x, by simp [lookupB, hk]⟩
    · obtain ⟨b2, hb2⟩ := ih
      exact ⟨b2, by simpa [lookupB, hk] using hb2⟩

theorem getElem_zeroPad : ∀ (t i : Nat) (l : List Nat), i < t →
    (List.replicate t 0 ++ l)[i]? = some 0 := by
  intro t
  induction t with
  | zero => intro i l h; omega
  | succ t ih =>
    intro i l h
    rw [List.replicate_succ, List.cons_append]
    cases i with
    | zero => rw [List.getElem?_cons_zero]
    | succ j =>
      rw [List.getElem?_cons_succ]
      exact ih j l (by omega)

/-- When `malloc` hands out a payload pointer, a live header sits one
header-size below it. -/
theorem malloc_ptr_lookup {h : Heap} (hi : Inv h) (n : Nat) {p : Nat}
    (hp : (malloc h n).1 = some p) :
    ∃ b, lookupB (malloc h n).2.blocks (get_addr p) = some b := by
  obtain ⟨bs, ⟨hbl, hhd, hbrk⟩, hnaf, hacc⟩ := hi
  by_cases hn : n = 0
  · rw [malloc, if_pos hn] at hp
    exact absurd hp (by simp)
  · rw [malloc, if_neg hn] at hp ⊢
    dsimp only at hp ⊢
    by_cases hpre : (n : Int) ≤ h.allocated_size - h.requested_size
    · rw [if_pos hpre] at hp ⊢
      cases hff : findFit h.blocks n h.head h.blocks.length with
      | none =>
        rw [hff] at hp
        dsimp only at hp ⊢
        by_cases hgl : h.brk + (HDR + n) ≤ h.limit
        · rw [if_pos hgl] at hp ⊢
          dsimp only at hp ⊢
          have hpv : p = h.brk + HDR := (Option.some_inj.mp hp).symm
          have hga : get_addr (h.brk + HDR) = h.brk := by
            show h.brk + HDR - HDR = h.brk
            omega
          rw [hpv, hga]
          exact lookupB_snoc_self _ h.brk _
        · rw [if_neg hgl] at hp
          exact absurd hp (by simp)
      | some a =>
        rw [hff] at hp
        dsimp only at hp ⊢
        cases hlb : lookupB h.blocks a with
        | none =>
          rw [hlb] at hp
          dsimp only at hp
          exact absurd hp (by simp)
        | some b =>
          rw [hlb] at hp
          dsimp only at hp ⊢
          have hlb0 := hlb
          rw [hbl] at hlb0
          obtain ⟨ab, rest, hg, hsize, hfree, hptr, hprev, hdata⟩ := getA_of_lookup hlb0
          obtain ⟨pre, hpz, haz⟩ := getA_zipper hg
          by_cases hsp : 2 * n ≤ b.size ∧ 1024 ≤ b.size - n
          · rw [if_pos hsp] at hp ⊢
            have hsz2 : n + HDR ≤ ab.size := by
              have h1 := hsp.2
              have h2 := HDR_le_slack
              rw [hsize] at h1
              omega
            have hsm := split_mem_at h bs a ab rest n hbl hg hsz2
            rw [hsm] at hp ⊢
            dsimp only at hp ⊢
            have hga2 : getA 0 a (splitAtA n 0 a bs) =
                some (⟨n, ab.free, ab.data.take n⟩,
                      ⟨ab.size - n - HDR, true, ab.data.drop (n + HDR)⟩ :: rest) := by
              rw [hpz, haz]
              rw [splitAtA_zipper n pre ab rest 0]
              exact getA_at pre _ _ 0
            obtain ⟨bl2, hlb2⟩ := lookup_layout_ex none hga2
            rw [hlb2] at hp ⊢
            dsimp only at hp ⊢
            have hpe : p = a + HDR := (Option.some_inj.mp hp).symm
            have hga' : get_addr (a + HDR) = a := by
              show a + HDR - HDR = a
              omega
            rw [hpe, hga', lookupB_updateB_self, hlb2]
            exact ⟨_, rfl⟩
          · rw [if_neg hsp] at hp ⊢
            rw [hlb] at hp ⊢
            dsimp only at hp ⊢
            have hpe : p = a + HDR := by
              rw [← hptr]
              exact (Option.some_inj.mp hp).symm
            have hga' : get_addr (a + HDR) = a := by
              show a + HDR - HDR = a
              omega
            rw [hpe, hga', lookupB_updateB_self, hlb]
            exact ⟨_, rfl⟩
    · rw [if_neg hpre] at hp ⊢
      dsimp only at hp ⊢
      by_cases hgl : h.brk + (HDR + n) ≤ h.limit
      · rw [if_pos hgl] at hp ⊢
        dsimp only at hp ⊢
        have hpv : p = h.brk + HDR := (Option.some_inj.mp hp).symm
        have hga : get_addr (h.brk + HDR) = h.brk := by
          show h.brk + HDR - HDR = h.brk
          omega
        rw [hpv, hga]
        exact lookupB_snoc_self _ h.brk _
      · rw [if_neg hgl] at hp
        exact absurd hp (by simp)

/-- C5: the prefilter is sound.  In every reachable heap state, whenever
the accounting slack `allocated_size - requested_size` is below the
requested size, no free block in the registry has capacity at least that
size, so skipping the scan never bypasses a usable free block. -/
theorem claim_C5 (h : Heap) (n a : Nat) (b : mem_block) (hr : Reachable h)
    (hslack : h.allocated_size - h.requested_size < (n : Int))
    (hlb : lookupB h.blocks a = some b) (hbf : b.free = true) :
    b.size < n := by
  obtain ⟨bs, ⟨hbl, hhd, hbrk⟩, hnaf, hacc⟩ := inv_reachable hr
  rw [hbl] at hlb
  obtain ⟨ab, rest, hg, hsize, hfree, hptr, hprev, hdata⟩ := getA_of_lookup hlb
  obtain ⟨pre, hpz, haz⟩ := getA_zipper hg
  rw [hpz] at hacc
  rw [freeSumI_append, freeSumI_cons] at hacc
  have habf : ab.free = true := by
    rw [← hfree]
    exact hbf
  simp only [habf, if_true] at hacc
  have h1 := freeSumI_nonneg pre
  have h2 := freeSumI_nonneg rest
  rw [hsize]
  omega

/-- C5 witness: after `malloc(16); malloc(16); free(40)` the slack is 16,
below a request of 17, and indeed the single free block only holds 16
bytes. -/
theorem claim_C5_witness :
    (⟨16, true, 40, none, some 56, junkL 16⟩ : mem_block).size < 17 :=
  claim_C5 exC5 17 0 ⟨16, true, 40, none, some 56, junkL 16⟩
    (Reachable.fstep 40 (Reachable.mstep 16 (Reachable.mstep 16 (Reachable.init 200))))
    (by decide) (by decide) rfl

/-- C6: in every reachable heap state no two physically adjacent blocks
are both free: the block starting right at the end of a free block is
always in use. -/
theorem claim_C6 (h : Heap) (a : Nat) (b b' : mem_block) (hr : Reachable h)
    (hlb : lookupB h.blocks a = some b)
    (hlb' : lookupB h.blocks (a + HDR + b.size) = some b')
    (hbf : b.free = true) : b'.free = false := by
  obtain ⟨bs, ⟨hbl, hhd, hbrk⟩, hnaf, hacc⟩ := inv_reachable hr
  rw [hbl] at hlb hlb'
  obtain ⟨ab, rest, hg, hsize, hfree, hptr, hprev, hdata⟩ := getA_of_lookup hlb
  obtain ⟨ab', rest', hg', hsize', hfree', hptr', hprev', hdata'⟩ := getA_of_lookup hlb'
  rw [hsize] at hg'
  cases rest with
  | nil =>
    obtain ⟨pre, hpz, haz⟩ := getA_zipper hg
    have hlt := getA_lt hg'
    rw [hpz, spanLen_append] at hlt
    have hsp1 : spanLen [ab] = HDR + ab.size + 0 := rfl
    omega
  | cons ub post =>
    have hstep := getA_step hg
    rw [hstep] at hg'
    have hp2 := Option.some_inj.mp hg'
    have hub : ub = ab' := congrArg Prod.fst hp2
    obtain ⟨pre, hpz, haz⟩ := getA_zipper hg
    rw [hpz] at hnaf
    have hch : List.Chain' adjOK (ab :: ub :: post) := (List.chain'_append.mp hnaf).2.1
    have hadj : adjOK ab ub := (List.chain'_cons.mp hch).1
    have habf : ab.free = true := by
      rw [← hfree]
      exact hbf
    have hubf := hadj habf
    rw [hfree', ← hub]
    exact hubf

/-- C6 witness: in the heap of `exC5` the free block at address 0 (16
bytes) is directly followed at address 56 by an in-use block. -/
theorem claim_C6_witness :
    (⟨16, false, 96, some 0, none, junkL 16⟩ : mem_block).free = false :=
  claim_C6 exC5 0 ⟨16, true, 40, none, some 56, junkL 16⟩
    ⟨16, false, 96, some 0, none, junkL 16⟩
    (Reachable.fstep 40 (Reachable.mstep 16 (Reachable.mstep 16 (Reachable.init 200))))
    (by decide) (by decide) rfl

/-- C10: every reachable heap state passes the executable well-formedness
check of the registry's doubly-linked list: the head block has no `prev`
link, every `next`/`prev` neighbour points back, and every header is
reachable from the head along `next` links. -/
theorem claim_C10 (h : Heap) (hr : Reachable h) : linkWfB h = true := by
  obtain ⟨bs, hw, hrest⟩ := inv_reachable hr
  exact linkWf_of_WfL hw

/-- C10 witness: the check passes on the heap after a first allocation. -/
theorem claim_C10_witness : linkWfB (malloc (initHeap 100) 1).2 = true :=
  claim_C10 (malloc (initHeap 100) 1).2 (Reachable.mstep 1 (Reachable.init 100))

/-- C4: in the first-fit scan the matched free block is split exactly when
its capacity is at least twice the request and the leftover `capacity -
request` is at least 1024 bytes; the split leaves the caller's portion
with capacity exactly `n` at the original address (keeping the original
`next` link), and creates a new free block of `oldSize - n - HDR` bytes
directly above it, linked into the registry at the original block's
position (its `next` is the caller's block, its `prev` the original
block's `prev`); without the split the registry is only flag-updated. -/
theorem claim_C4 (h : Heap) (bs : List AB) (n a : Nat) (ab : AB) (rest : List AB)
    (hn : n ≠ 0)
    (hw : WfL h bs)
    (hg : getA 0 a bs = some (ab, rest))
    (hpre : (n : Int) ≤ h.allocated_size - h.requested_size)
    (hff : findFit h.blocks n h.head h.blocks.length = some a) :
    ((malloc h n).2.blocks.length = h.blocks.length + 1 ↔
      2 * n ≤ ab.size ∧ 1024 ≤ ab.size - n) ∧
    (2 * n ≤ ab.size ∧ 1024 ≤ ab.size - n →
      (∃ bl,
        lookupB h.blocks a =
          some ⟨ab.size, ab.free, a + HDR, bl, prevOf a ab rest, ab.data⟩ ∧
        lookupB (malloc h n).2.blocks a =
          some ⟨n, false, a + HDR, bl, some (a + HDR + n), ab.data.take n⟩) ∧
      lookupB (malloc h n).2.blocks (a + HDR + n) =
        some ⟨ab.size - n - HDR, true, a + HDR + n + HDR, some a,
              prevOf a ab rest, ab.data.drop (n + HDR)⟩) ∧
    (¬(2 * n ≤ ab.size ∧ 1024 ≤ ab.size - n) →
      (malloc h n).2.blocks = updateB (fun bb => { bb with free := false }) h.blocks a) := by
  obtain ⟨hbl, hhd, hbrk⟩ := hw
  obtain ⟨pre, hpz, haz⟩ := getA_zipper hg
  have hlbA : lookupB h.blocks a =
      some ⟨ab.size, ab.free, a + HDR, belowOf 0 none pre, prevOf a ab rest, ab.data⟩ := by
    rw [hbl, hpz]
    have hx := lookup_layout_at ab rest pre 0 none
    rw [← haz] at hx
    exact hx
  rw [malloc, if_neg hn]
  dsimp only
  rw [if_pos hpre, hff]
  dsimp only
  rw [hlbA]
  dsimp only
  by_cases hsp : 2 * n ≤ ab.size ∧ 1024 ≤ ab.size - n
  · rw [if_pos hsp]
    have hsz2 : n + HDR ≤ ab.size := by
      have h1 := hsp.2
      have h2 := HDR_le_slack
      omega
    have hsm := split_mem_at h bs a ab rest n hbl hg hsz2
    rw [hsm]
    dsimp only
    have hSLz : splitAtA n 0 a bs =
        pre ++ ⟨n, ab.free, ab.data.take n⟩ ::
          ⟨ab.size - n - HDR, true, ab.data.drop (n + HDR)⟩ :: rest := by
      rw [hpz, haz]
      exact splitAtA_zipper n pre ab rest 0
    have hlb2 : lookupB (layout 0 none (splitAtA n 0 a bs)) a =
        some ⟨n, ab.free, a + HDR, belowOf 0 none pre,
              some (a + HDR + n), ab.data.take n⟩ := by
      rw [hSLz]
      have hx := lookup_layout_at (⟨n, ab.free, ab.data.take n⟩ : AB)
          (⟨ab.size - n - HDR, true, ab.data.drop (n + HDR)⟩ :: rest) pre 0 none
      rw [← haz] at hx
      exact hx
    rw [hlb2]
    dsimp only
    have hlow : lookupB (updateB (fun bb => { bb with free := false })
        (layout 0 none (splitAtA n 0 a bs)) a) a =
        some ⟨n, false, a + HDR, belowOf 0 none pre,
              some (a + HDR + n), ab.data.take n⟩ := by
      rw [lookupB_updateB_self, hlb2]
      rfl
    have hne2 : a + HDR + n ≠ a := by
      have := HDR_pos
      omega
    have e2 : (0 : Nat) + spanLen (pre ++ [(⟨n, ab.free, ab.data.take n⟩ : AB)]) =
        a + HDR + n := by
      rw [spanLen_append]
      show 0 + (spanLen pre + (HDR + n + 0)) = a + HDR + n
      omega
    have hhi : lookupB (layout 0 none (splitAtA n 0 a bs)) (a + HDR + n) =
        some ⟨ab.size - n - HDR, true, a + HDR + n + HDR, some a,
              prevOf a ab rest, ab.data.drop (n + HDR)⟩ := by
      rw [hSLz,
          show pre ++ (⟨n, ab.free, ab.data.take n⟩ : AB) ::
              (⟨ab.size - n - HDR, true, ab.data.drop (n + HDR)⟩ : AB) :: rest =
            (pre ++ [⟨n, ab.free, ab.data.take n⟩]) ++
              (⟨ab.size - n - HDR, true, ab.data.drop (n + HDR)⟩ : AB) :: rest from by simp]
      have hx := lookup_layout_at
          (⟨ab.size - n - HDR, true, ab.data.drop (n + HDR)⟩ : AB) rest
          (pre ++ [⟨n, ab.free, ab.data.take n⟩]) 0 none
      rw [e2] at hx
      rw [hx, belowOf_snoc _ pre 0 none, ← haz]
      have hpv : prevOf (a + HDR + n)
          (⟨ab.size - n - HDR, true, ab.data.drop (n + HDR)⟩ : AB) rest =
          prevOf a ab rest := by
        cases rest with
        | nil => rfl
        | cons q p2 =>
          show some (a + HDR + n + HDR + (ab.size - n - HDR)) = some (a + HDR + ab.size)
          congr 1
          omega
      rw [hpv]
    have hhiU : lookupB (updateB (fun bb => { bb with free := false })
        (layout 0 none (splitAtA n 0 a bs)) a) (a + HDR + n) =
        some ⟨ab.size - n - HDR, true, a + HDR + n + HDR, some a,
              prevOf a ab rest, ab.data.drop (n + HDR)⟩ := by
      rw [lookupB_updateB_ne _ _ hne2, hhi]
    refine ⟨⟨fun hlen => hsp, fun hc => ?_⟩,
            fun hc => ⟨⟨belowOf 0 none pre, rfl, hlow⟩, hhiU⟩,
            fun hc => absurd hsp hc⟩
    rw [updateB_length, layout_length, hSLz, hbl, layout_length, hpz]
    simp only [List.length_append, List.length_cons]
    omega
  · rw [if_neg hsp]
    rw [hlbA]
    dsimp only
    refine ⟨⟨fun hlen => ?_, fun hc => absurd hc hsp⟩,
            fun hc => absurd hc hsp, fun hc => rfl⟩
    rw [updateB_length] at hlen
    omega

/-- C4 witness: on a heap with a single free 4096-byte block, a request of
100 bytes splits it, leaving a 3956-byte free block above the carved-out
100-byte portion, linked between the registry head position and the
caller's block. -/
theorem claim_C4_witness :
    lookupB (malloc exC4 100).2.blocks 140 =
      some ⟨3956, true, 180, some 0, none, []⟩ :=
  ((claim_C4 exC4 [⟨4096, true, []⟩] 100 0 ⟨4096, true, []⟩ [] (by decide)
      ⟨rfl, rfl, rfl⟩ rfl (by decide) (by decide)).2.1 (by decide)).2

/-- C9: `AllocateZeroed` computes `num * size` in wrapping machine
arithmetic with no overflow check, delegates that size to `Allocate`
(returning null exactly when it does), and on success every payload byte
up to the requested total reads as zero before any write. -/
theorem claim_C9 (h : Heap) (num size : Nat) (hr : Reachable h) :
    (calloc h num size).1 = (malloc h (num * size % SIZE_MOD)).1 ∧
    ∀ p, (calloc h num size).1 = some p →
      ∀ i, i < num * size % SIZE_MOD → readByte (calloc h num size).2 p i = some 0 := by
  have hi := inv_reachable hr
  rw [calloc]
  cases hmm : malloc h (num * size % SIZE_MOD) with
  | mk o h1 =>
    cases o with
    | none =>
      refine ⟨rfl, ?_⟩
      intro p hp
      dsimp only at hp
      exact absurd hp (by simp)
    | some q =>
      refine ⟨rfl, ?_⟩
      intro p hp
      dsimp only at hp
      have hqp : q = p := Option.some_inj.mp hp
      intro i hi2
      dsimp only
      rw [← hqp]
      obtain ⟨b, hb⟩ := malloc_ptr_lookup hi (num * size % SIZE_MOD) (p := q) (by rw [hmm])
      rw [hmm] at hb
      have hlset : lookupB (memsetZ h1 q (num * size % SIZE_MOD)).blocks (get_addr q) =
          (lookupB h1.blocks (get_addr q)).map
            (fun bb => { bb with data := List.replicate (num * size % SIZE_MOD) 0 ++ List.drop (num * size % SIZE_MOD) bb.data }) :=
        lookupB_updateB_self _ _ _
      rw [readByte, hlset, hb]
      show (List.replicate (num * size % SIZE_MOD) 0 ++
          List.drop (num * size % SIZE_MOD) b.data)[i]? = some 0
      exact getElem_zeroPad _ i _ hi2

/-- C9 witness: `calloc(2, 3)` on the empty heap hands out pointer 40 and
its first byte reads as zero. -/
theorem claim_C9_witness :
    readByte (calloc (initHeap 200) 2 3).2 40 0 = some 0 :=
  (claim_C9 (initHeap 200) 2 3 (Reachable.init 200)).2 40 (by decide) 0 (by decide)

end MemAlloc
